import Mathlib

/-
Verification of the Action Profile Manager core (action_prof_mgr.h and the
spec accompanying it).  The repository provides the header only, so every
operation body is modelled from the specification text; the definitions keep
the header's names and shapes (ids and device handles are machine integers,
embedded here as Nat; statuses use the cross-service error-code enumeration).
-/

/-- Status codes of the cross-service error-code enumeration used by the
    manager (google.rpc codes). -/
inductive StatusCode where
  | Ok
  | InvalidArgument
  | NotFound
  | AlreadyExists
  | FailedPrecondition
  | Internal
  deriving DecidableEq, Repr

/-! ### Association-list helpers

`std::map` / `std::unordered_map` contents are embedded as association lists
with `Nat` keys; all maps maintained by the manager keep their key lists
duplicate-free. -/

/-- Value found for a key, scanning left to right (first match wins). -/
def lookupKey {β : Type} (k : Nat) : List (Nat × β) → Option β
  | [] => none
  | (a, b) :: t => if a = k then some b else lookupKey k t

/-- Remove the (first) entry with the given key, as `map::erase` does. -/
def eraseKey {β : Type} (k : Nat) : List (Nat × β) → List (Nat × β)
  | [] => []
  | (a, b) :: t => if a = k then t else (a, b) :: eraseKey k t

/-- The list of keys of an association list. -/
def keysOf {β : Type} (l : List (Nat × β)) : List Nat := l.map Prod.fst

theorem keysOf_nil {β : Type} : keysOf ([] : List (Nat × β)) = [] := rfl

theorem keysOf_cons {β : Type} (p : Nat × β) (t : List (Nat × β)) :
    keysOf (p :: t) = p.1 :: keysOf t := rfl

theorem key_mem_keysOf {β : Type} {k : Nat} {v : β} {l : List (Nat × β)}
    (h : (k, v) ∈ l) : k ∈ keysOf l :=
  List.mem_map_of_mem Prod.fst h

theorem lookupKey_eq_none {β : Type} {k : Nat} {l : List (Nat × β)} :
    lookupKey k l = none ↔ k ∉ keysOf l := by
  induction l with
  | nil => simp [lookupKey, keysOf]
  | cons p t ih =>
    obtain ⟨a, b⟩ := p
    by_cases hak : a = k
    · subst hak
      simp [lookupKey, keysOf_cons]
    · have hka : k ≠ a := fun hh => hak hh.symm
      simp [lookupKey, keysOf_cons, hak, hka, ih]

theorem lookupKey_mem {β : Type} {k : Nat} {v : β} {l : List (Nat × β)} :
    lookupKey k l = some v → (k, v) ∈ l := by
  induction l with
  | nil => intro h; simp [lookupKey] at h
  | cons p t ih =>
    obtain ⟨a, b⟩ := p
    intro h
    by_cases hak : a = k
    · subst hak
      simp [lookupKey] at h
      subst h
      exact List.mem_cons_self _ _
    · simp [lookupKey, hak] at h
      exact List.mem_cons_of_mem _ (ih h)

theorem lookupKey_of_mem {β : Type} {k : Nat} {v : β} {l : List (Nat × β)}
    (hnd : (keysOf l).Nodup) (hmem : (k, v) ∈ l) : lookupKey k l = some v := by
  induction l with
  | nil => simp at hmem
  | cons p t ih =>
    obtain ⟨a, b⟩ := p
    rw [keysOf_cons] at hnd
    have hnd2 := List.nodup_cons.mp hnd
    rcases List.mem_cons.mp hmem with heq | hmemt
    · cases heq
      simp [lookupKey]
    · have hak : a ≠ k := by
        intro hh
        subst hh
        exact hnd2.1 (key_mem_keysOf hmemt)
      simp [lookupKey, hak]
      exact ih hnd2.2 hmemt

theorem eraseKey_sublist {β : Type} (k : Nat) (l : List (Nat × β)) :
    List.Sublist (eraseKey k l) l := by
  induction l with
  | nil => simp [eraseKey]
  | cons p t ih =>
    obtain ⟨a, b⟩ := p
    by_cases hak : a = k
    · simp only [eraseKey, if_pos hak]
      exact List.sublist_cons_self _ _
    · simp only [eraseKey, if_neg hak]
      exact List.Sublist.cons₂ _ ih

theorem mem_of_mem_eraseKey {β : Type} {k : Nat} {p : Nat × β} {l : List (Nat × β)} :
    p ∈ eraseKey k l → p ∈ l :=
  fun h => (eraseKey_sublist k l).mem h

theorem keysOf_eraseKey_sublist {β : Type} (k : Nat) (l : List (Nat × β)) :
    List.Sublist (keysOf (eraseKey k l)) (keysOf l) :=
  (eraseKey_sublist k l).map Prod.fst

theorem nodup_keysOf_eraseKey {β : Type} {k : Nat} {l : List (Nat × β)}
    (h : (keysOf l).Nodup) : (keysOf (eraseKey k l)).Nodup :=
  h.sublist (keysOf_eraseKey_sublist k l)

theorem ne_key_of_mem_eraseKey {β : Type} {k : Nat} {p : Nat × β} {l : List (Nat × β)}
    (hnd : (keysOf l).Nodup) (hmem : p ∈ eraseKey k l) : p.1 ≠ k := by
  induction l with
  | nil => simp [eraseKey] at hmem
  | cons q t ih =>
    obtain ⟨a, b⟩ := q
    rw [keysOf_cons] at hnd
    have hnd2 := List.nodup_cons.mp hnd
    by_cases hak : a = k
    · subst hak
      simp only [eraseKey, if_pos rfl] at hmem
      intro hpk
      exact hnd2.1 (hpk ▸ key_mem_keysOf (show (p.1, p.2) ∈ t from hmem))
    · simp only [eraseKey, if_neg hak] at hmem
      rcases List.mem_cons.mp hmem with heq | hmemt
      · subst heq
        exact hak
      · exact ih hnd2.2 hmemt

theorem lookupKey_eraseKey_ne {β : Type} {k1 k2 : Nat} (l : List (Nat × β))
    (h : k1 ≠ k2) : lookupKey k1 (eraseKey k2 l) = lookupKey k1 l := by
  induction l with
  | nil => simp [eraseKey]
  | cons p t ih =>
    obtain ⟨a, b⟩ := p
    by_cases hak : a = k2
    · subst hak
      have hk1 : a ≠ k1 := fun hh => h (hh.symm)
      simp [eraseKey, lookupKey, hk1]
    · by_cases hk1 : a = k1
      · subst hk1
        simp [eraseKey, lookupKey, hak]
      · simp [eraseKey, lookupKey, hak, hk1, ih]

/-! ### ActionProfBiMap (IdHandleTable)

Bidirectional map between a control-plane id and a device handle, kept as two
maps in lockstep.  Modelled from the spec: `add(id, handle)` fails with
`AlreadyExists` if either side is already mapped; `remove(id)` fails with
`NotFound` if the id is absent; lookups return an absent result; no other
side effects. -/

structure ActionProfBiMap where
  fwd : List (Nat × Nat)
  rev : List (Nat × Nat)
  deriving DecidableEq, Repr

namespace ActionProfBiMap

def empty : ActionProfBiMap := ⟨[], []⟩

/-- Lookup the handle mapped to an id (absent result when unmapped). -/
def retrieve_handle (m : ActionProfBiMap) (id : Nat) : Option Nat :=
  lookupKey id m.fwd

/-- Lookup the id mapped to a handle (absent result when unmapped). -/
def retrieve_id (m : ActionProfBiMap) (h : Nat) : Option Nat :=
  lookupKey h m.rev

/-- Modelled from the spec: insert the pair in both directions unless either
    side is already mapped, in which case fail with `AlreadyExists` and leave
    the table untouched. -/
def add (m : ActionProfBiMap) (id h : Nat) : StatusCode × ActionProfBiMap :=
  if (lookupKey id m.fwd).isSome || (lookupKey h m.rev).isSome then
    (.AlreadyExists, m)
  else
    (.Ok, ⟨(id, h) :: m.fwd, (h, id) :: m.rev⟩)

/-- Modelled from the spec: remove the id and its handle from both directions,
    failing with `NotFound` (and leaving the table untouched) if the id is
    absent. -/
def remove (m : ActionProfBiMap) (id : Nat) : StatusCode × ActionProfBiMap :=
  match lookupKey id m.fwd with
  | none => (.NotFound, m)
  | some h => (.Ok, ⟨eraseKey id m.fwd, eraseKey h m.rev⟩)

/-- The table is a bijection: key lists duplicate-free on both sides, and each
    stored pair is mirrored exactly in the other direction. -/
def Bij (m : ActionProfBiMap) : Prop :=
  (keysOf m.fwd).Nodup ∧ (keysOf m.rev).Nodup ∧
    (∀ p ∈ m.fwd, lookupKey p.2 m.rev = some p.1) ∧
    (∀ p ∈ m.rev, lookupKey p.2 m.fwd = some p.1)

instance (m : ActionProfBiMap) : Decidable (Bij m) := by
  unfold Bij
  infer_instance

/-- One table operation: an id/handle insertion or an id removal. -/
inductive Op where
  | add (id h : Nat)
  | remove (id : Nat)
  deriving DecidableEq, Repr

def applyOp (m : ActionProfBiMap) : Op → ActionProfBiMap
  | .add id h => (m.add id h).2
  | .remove id => (m.remove id).2

def run (ops : List Op) (m : ActionProfBiMap) : ActionProfBiMap :=
  ops.foldl applyOp m

theorem bij_empty : Bij ActionProfBiMap.empty := by
  refine ⟨?_, ?_, ?_, ?_⟩ <;> simp [ActionProfBiMap.empty, keysOf]

theorem bij_add {m : ActionProfBiMap} (hb : Bij m) (id h : Nat) :
    Bij (m.add id h).2 := by
  obtain ⟨hfnd, hrnd, hfr, hrf⟩ := hb
  by_cases hguard : (lookupKey id m.fwd).isSome || (lookupKey h m.rev).isSome
  · simpa [ActionProfBiMap.add, hguard] using ⟨hfnd, hrnd, hfr, hrf⟩
  · simp only [Bool.or_eq_true, Option.isSome_iff_exists, not_or, not_exists] at hguard
    have hidnone : lookupKey id m.fwd = none := by
      cases hcase : lookupKey id m.fwd with
      | none => rfl
      | some v => exact absurd hcase (hguard.1 v)
    have hhnone : lookupKey h m.rev = none := by
      cases hcase : lookupKey h m.rev with
      | none => rfl
      | some v => exact absurd hcase (hguard.2 v)
    have hidmem : id ∉ keysOf m.fwd := lookupKey_eq_none.mp hidnone
    have hhmem : h ∉ keysOf m.rev := lookupKey_eq_none.mp hhnone
    have hadd : (m.add id h).2 = ⟨(id, h) :: m.fwd, (h, id) :: m.rev⟩ := by
      simp [ActionProfBiMap.add, hidnone, hhnone]
    rw [hadd]
    refine ⟨?_, ?_, ?_, ?_⟩
    · simp only [keysOf, List.map_cons]
      exact List.nodup_cons.mpr ⟨by simpa [keysOf] using hidmem, hfnd⟩
    · simp only [keysOf, List.map_cons]
      exact List.nodup_cons.mpr ⟨by simpa [keysOf] using hhmem, hrnd⟩
    · intro p hp
      rcases List.mem_cons.mp hp with heq | hmem
      · subst heq
        simp [lookupKey]
      · have hne : p.2 ≠ h := by
          intro hph
          have := hfr p hmem
          rw [hph, hhnone] at this
          exact Option.noConfusion this
        have hne2 : h ≠ p.2 := fun hh => hne hh.symm
        have : lookupKey p.2 ((h, id) :: m.rev) = lookupKey p.2 m.rev := by
          simp [lookupKey, hne2]
        rw [this]
        exact hfr p hmem
    · intro p hp
      rcases List.mem_cons.mp hp with heq | hmem
      · subst heq
        simp [lookupKey]
      · have hne : p.2 ≠ id := by
          intro hpid
          have := hrf p hmem
          rw [hpid, hidnone] at this
          exact Option.noConfusion this
        have hne2 : id ≠ p.2 := fun hh => hne hh.symm
        have : lookupKey p.2 ((id, h) :: m.fwd) = lookupKey p.2 m.fwd := by
          simp [lookupKey, hne2]
        rw [this]
        exact hrf p hmem

theorem bij_remove {m : ActionProfBiMap} (hb : Bij m) (id : Nat) :
    Bij (m.remove id).2 := by
  obtain ⟨hfnd, hrnd, hfr, hrf⟩ := hb
  cases hcase : lookupKey id m.fwd with
  | none => simpa [ActionProfBiMap.remove, hcase] using ⟨hfnd, hrnd, hfr, hrf⟩
  | some h =>
    have hrem : (m.remove id).2 = ⟨eraseKey id m.fwd, eraseKey h m.rev⟩ := by
      simp [ActionProfBiMap.remove, hcase]
    have hpair : (id, h) ∈ m.fwd := lookupKey_mem hcase
    have hrevid : lookupKey h m.rev = some id := hfr (id, h) hpair
    rw [hrem]
    refine ⟨nodup_keysOf_eraseKey hfnd, nodup_keysOf_eraseKey hrnd, ?_, ?_⟩
    · intro p hp
      have hpfwd : p ∈ m.fwd := mem_of_mem_eraseKey hp
      have hpne : p.1 ≠ id := ne_key_of_mem_eraseKey hfnd hp
      have hph : p.2 ≠ h := by
        intro hph
        have := hfr p hpfwd
        rw [hph, hrevid] at this
        exact hpne (Option.some.inj this).symm
      rw [lookupKey_eraseKey_ne m.rev hph]
      exact hfr p hpfwd
    · intro p hp
      have hprev : p ∈ m.rev := mem_of_mem_eraseKey hp
      have hpne : p.1 ≠ h := ne_key_of_mem_eraseKey hrnd hp
      have hpid : p.2 ≠ id := by
        intro hpid
        have := hrf p hprev
        rw [hpid, hcase] at this
        exact hpne (Option.some.inj this).symm
      rw [lookupKey_eraseKey_ne m.fwd hpid]
      exact hrf p hprev

theorem bij_applyOp {m : ActionProfBiMap} (hb : Bij m) (op : Op) :
    Bij (m.applyOp op) := by
  cases op with
  | add id h => exact bij_add hb id h
  | remove id => exact bij_remove hb id

theorem bij_run {m : ActionProfBiMap} (hb : Bij m) (ops : List Op) :
    Bij (run ops m) := by
  induction ops generalizing m with
  | nil => exact hb
  | cons op rest ih => exact ih (bij_applyOp hb op)

end ActionProfBiMap

/-- C4: For every sequence of add and remove operations on the id-to-handle
    table (in particular every sequence of member_create/member_delete on
    distinct ids), the table remains a bijection: duplicate-free keys on both
    sides and each stored pair mirrored exactly in the other direction, so no
    id or handle ever maps to two different partners. -/
theorem bimap_remains_bijection (ops : List ActionProfBiMap.Op) :
    ActionProfBiMap.Bij (ActionProfBiMap.run ops ActionProfBiMap.empty) :=
  ActionProfBiMap.bij_run ActionProfBiMap.bij_empty ops

/-- C9: IdHandleTable.add fails with `AlreadyExists` exactly when the id or the
    handle is already mapped and otherwise only inserts the new pair;
    IdHandleTable.remove fails with `NotFound` exactly when the id is absent and
    otherwise only deletes the pair; failing operations leave the table
    untouched, and the lookups return an absent result for unmapped keys. -/
theorem bimap_error_behavior (m : ActionProfBiMap) (id h : Nat) :
    ((m.retrieve_handle id).isSome ∨ (m.retrieve_id h).isSome →
      m.add id h = (.AlreadyExists, m)) ∧
    (m.retrieve_handle id = none → m.retrieve_id h = none →
      m.add id h = (.Ok, ⟨(id, h) :: m.fwd, (h, id) :: m.rev⟩)) ∧
    (m.retrieve_handle id = none → m.remove id = (.NotFound, m)) ∧
    (∀ hdl, m.retrieve_handle id = some hdl →
      m.remove id = (.Ok, ⟨eraseKey id m.fwd, eraseKey hdl m.rev⟩)) ∧
    (id ∉ keysOf m.fwd → m.retrieve_handle id = none) ∧
    (h ∉ keysOf m.rev → m.retrieve_id h = none) := by
  refine ⟨?_, ?_, ?_, ?_, ?_, ?_⟩
  · intro hsome
    have : (lookupKey id m.fwd).isSome || (lookupKey h m.rev).isSome := by
      rcases hsome with hs | hs <;>
        simp [ActionProfBiMap.retrieve_handle, ActionProfBiMap.retrieve_id] at hs <;>
        simp [hs]
    simp [ActionProfBiMap.add, this]
  · intro h1 h2
    simp [ActionProfBiMap.retrieve_handle] at h1
    simp [ActionProfBiMap.retrieve_id] at h2
    simp [ActionProfBiMap.add, h1, h2]
  · intro h1
    simp [ActionProfBiMap.retrieve_handle] at h1
    simp [ActionProfBiMap.remove, h1]
  · intro hdl h1
    simp [ActionProfBiMap.retrieve_handle] at h1
    simp [ActionProfBiMap.remove, h1]
  · intro h1
    exact lookupKey_eq_none.mpr h1
  · intro h1
    exact lookupKey_eq_none.mpr h1

/-- Concrete instances of the C9 error behaviors: on the table {1 ↦ 10} the
    add of a mapped id fails with `AlreadyExists`, removing an unmapped id
    fails with `NotFound`, both leaving the table untouched; a fresh add
    succeeds, a mapped remove succeeds, and unmapped lookups are absent. -/
theorem bimap_error_behavior_witness :
    (ActionProfBiMap.mk [(1, 10)] [(10, 1)]).add 1 20 =
      (.AlreadyExists, ActionProfBiMap.mk [(1, 10)] [(10, 1)]) ∧
    (ActionProfBiMap.mk [(1, 10)] [(10, 1)]).add 2 20 =
      (.Ok, ActionProfBiMap.mk [(2, 20), (1, 10)] [(20, 2), (10, 1)]) ∧
    (ActionProfBiMap.mk [(1, 10)] [(10, 1)]).remove 2 =
      (.NotFound, ActionProfBiMap.mk [(1, 10)] [(10, 1)]) ∧
    (ActionProfBiMap.mk [(1, 10)] [(10, 1)]).remove 1 =
      (.Ok, ActionProfBiMap.mk [] []) ∧
    (ActionProfBiMap.mk [(1, 10)] [(10, 1)]).retrieve_handle 2 = none := by
  refine ⟨?_, ?_, ?_, ?_, ?_⟩
  · exact (bimap_error_behavior (ActionProfBiMap.mk [(1, 10)] [(10, 1)]) 1 20).1
      (Or.inl (by decide))
  · exact (bimap_error_behavior (ActionProfBiMap.mk [(1, 10)] [(10, 1)]) 2 20).2.1
      (by decide) (by decide)
  · exact (bimap_error_behavior (ActionProfBiMap.mk [(1, 10)] [(10, 1)]) 2 0).2.2.1
      (by decide)
  · exact (bimap_error_behavior (ActionProfBiMap.mk [(1, 10)] [(10, 1)]) 1 0).2.2.2.1
      10 (by decide)
  · exact (bimap_error_behavior (ActionProfBiMap.mk [(1, 10)] [(10, 1)]) 2 0).2.2.2.2.1
      (by decide)

/-! ### Watch ports and group membership records

Weights are validated to be at least 1 before reaching these structures (the
C++ `int` fields only ever hold values ≥ 1, with 0 usable as the explicit
"absent" sentinel of a membership diff), so they are embedded as `Nat`. -/

inductive WatchKindCase where
  | kNotSet
  | kWatch
  | kWatchPort
  deriving DecidableEq, Repr

structure WatchPort where
  watch_kind_case : WatchKindCase
  watch : Int
  watch_port : String
  pi_port : Nat
  deriving DecidableEq, Repr

def WatchPort.invalid_watch : WatchPort := ⟨.kNotSet, 0, "", 0⟩

/-- A member's participation in one group: weight (≥ 1) and watch descriptor. -/
structure MembershipInfo where
  weight : Nat
  watch : WatchPort
  deriving DecidableEq, Repr

/-- One diff result: id, current and new weight, current and new watch.  For a
    member present only in the desired membership (an insertion) the current
    side holds the absent sentinel (weight 0, invalid watch); for a deletion
    the new side does. -/
structure MembershipUpdate where
  id : Nat
  current_weight : Nat
  new_weight : Nat
  current_watch : WatchPort
  new_watch : WatchPort
  deriving DecidableEq, Repr

/-- Memberships handed to the diff engine are ordered by id with no
    duplicates; embedded as association lists with strictly ascending keys. -/
def SortedKeys {β : Type} (l : List (Nat × β)) : Prop :=
  l.Pairwise (fun p q => p.1 < q.1)

instance {β : Type} (l : List (Nat × β)) : Decidable (SortedKeys l) := by
  unfold SortedKeys
  infer_instance

/-- Every weight stored in a membership map is at least 1 (validated before
    any membership map is built). -/
def WeightsPositive (l : List (Nat × MembershipInfo)) : Prop :=
  ∀ p ∈ l, 1 ≤ p.2.weight

instance (l : List (Nat × MembershipInfo)) : Decidable (WeightsPositive l) := by
  unfold WeightsPositive
  infer_instance

/-- Modelled from the spec: `compute_membership_update(current, desired)` is an
    ordered merge-walk over the two sorted maps emitting an insert for each id
    only in `desired`, a delete for each id only in `current`, and a change
    (carrying both old and new values) for each id in both whose weight or
    watch differs; ids in both with identical info produce nothing.  The
    implementation body is not under src/ (header only); the walk follows
    spec section 4.3. -/
def compute_membership_update :
    List (Nat × MembershipInfo) → List (Nat × MembershipInfo) → List MembershipUpdate
  | [], [] => []
  | [], (i, d) :: ds =>
      ⟨i, 0, d.weight, WatchPort.invalid_watch, d.watch⟩ :: compute_membership_update [] ds
  | (i, c) :: cs, [] =>
      ⟨i, c.weight, 0, c.watch, WatchPort.invalid_watch⟩ :: compute_membership_update cs []
  | (ic, c) :: cs, (idd, d) :: ds =>
    if ic < idd then
      ⟨ic, c.weight, 0, c.watch, WatchPort.invalid_watch⟩ ::
        compute_membership_update cs ((idd, d) :: ds)
    else if idd < ic then
      ⟨idd, 0, d.weight, WatchPort.invalid_watch, d.watch⟩ ::
        compute_membership_update ((ic, c) :: cs) ds
    else if c = d then compute_membership_update cs ds
    else ⟨ic, c.weight, d.weight, c.watch, d.watch⟩ :: compute_membership_update cs ds
  termination_by c d => c.length + d.length

/-- Insert a key into a sorted association list, keeping it sorted. -/
def insertSorted {β : Type} (k : Nat) (v : β) : List (Nat × β) → List (Nat × β)
  | [] => [(k, v)]
  | (a, b) :: t =>
    if k < a then (k, v) :: (a, b) :: t
    else if k = a then (k, v) :: t
    else (a, b) :: insertSorted k v t

/-- Replace the value stored at a key (no effect when the key is absent). -/
def setKey {β : Type} (k : Nat) (v : β) : List (Nat × β) → List (Nat × β)
  | [] => []
  | (a, b) :: t => if a = k then (k, v) :: t else (a, b) :: setKey k v t

/-- Replaying one diff entry onto a membership map: an insert (absent current
    sentinel) inserts, a delete (absent new sentinel) erases, a change
    replaces the stored info. -/
def apply_membership_update (m : List (Nat × MembershipInfo)) (u : MembershipUpdate) :
    List (Nat × MembershipInfo) :=
  if u.current_weight = 0 then insertSorted u.id ⟨u.new_weight, u.new_watch⟩ m
  else if u.new_weight = 0 then eraseKey u.id m
  else setKey u.id ⟨u.new_weight, u.new_watch⟩ m

/-- Replaying a whole diff onto a membership map, first entry first. -/
def replay_membership_updates :
    List MembershipUpdate → List (Nat × MembershipInfo) → List (Nat × MembershipInfo)
  | [], m => m
  | u :: us, m => replay_membership_updates us (apply_membership_update m u)

/-- The update the spec requires for a single id, read off directly from the
    two lookups: insert when only desired contains it, delete when only
    current does, change when both do with different info, nothing otherwise. -/
def update_for_id (i : Nat) (c d : List (Nat × MembershipInfo)) : Option MembershipUpdate :=
  match lookupKey i c, lookupKey i d with
  | none, none => none
  | none, some dv => some ⟨i, 0, dv.weight, WatchPort.invalid_watch, dv.watch⟩
  | some cv, none => some ⟨i, cv.weight, 0, cv.watch, WatchPort.invalid_watch⟩
  | some cv, some dv =>
    if cv = dv then none else some ⟨i, cv.weight, dv.weight, cv.watch, dv.watch⟩

theorem lookupKey_cons_self {β : Type} {a : Nat} {b : β} {t : List (Nat × β)} :
    lookupKey a ((a, b) :: t) = some b := by
  simp [lookupKey]

theorem lookupKey_cons_ne {β : Type} {k a : Nat} {b : β} {t : List (Nat × β)}
    (h : a ≠ k) : lookupKey k ((a, b) :: t) = lookupKey k t := by
  simp [lookupKey, h]

theorem not_mem_keysOf_of_lt {β : Type} {k : Nat} {l : List (Nat × β)}
    (h : ∀ p ∈ l, k < p.1) : k ∉ keysOf l := by
  intro hmem
  obtain ⟨p, hp, hpk⟩ := List.mem_map.mp hmem
  have := h p hp
  omega

theorem update_for_id_cons_left {i a : Nat} {bv : MembershipInfo}
    {c d : List (Nat × MembershipInfo)} (h : a ≠ i) :
    update_for_id i ((a, bv) :: c) d = update_for_id i c d := by
  unfold update_for_id
  rw [lookupKey_cons_ne h]

theorem update_for_id_cons_right {i a : Nat} {bv : MembershipInfo}
    {c d : List (Nat × MembershipInfo)} (h : a ≠ i) :
    update_for_id i c ((a, bv) :: d) = update_for_id i c d := by
  unfold update_for_id
  rw [lookupKey_cons_ne h]

/-- Every id emitted by the merge-walk is above any lower bound common to the
    keys of both input maps. -/
theorem compute_membership_update_id_bound (k : Nat) :
    ∀ (c d : List (Nat × MembershipInfo)),
      (∀ p ∈ c, k < p.1) → (∀ p ∈ d, k < p.1) →
      ∀ u ∈ compute_membership_update c d, k < u.id := by
  intro c d
  induction c, d using compute_membership_update.induct with
  | case1 =>
    intro _ _ u hu
    simp [compute_membership_update] at hu
  | case2 i dv ds ih =>
    intro hc hd u hu
    simp only [compute_membership_update, List.mem_cons] at hu
    rcases hu with rfl | hu
    · exact hd (i, dv) (List.mem_cons_self _ _)
    · exact ih hc (fun p hp => hd p (List.mem_cons_of_mem _ hp)) u hu
  | case3 i cv cs ih =>
    intro hc hd u hu
    simp only [compute_membership_update, List.mem_cons] at hu
    rcases hu with rfl | hu
    · exact hc (i, cv) (List.mem_cons_self _ _)
    · exact ih (fun p hp => hc p (List.mem_cons_of_mem _ hp)) hd u hu
  | case4 ic cv cs idd dv ds hlt ih =>
    intro hc hd u hu
    simp only [compute_membership_update, if_pos hlt, List.mem_cons] at hu
    rcases hu with rfl | hu
    · exact hc (ic, cv) (List.mem_cons_self _ _)
    · exact ih (fun p hp => hc p (List.mem_cons_of_mem _ hp)) hd u hu
  | case5 ic cv cs idd dv ds hnlt hgt ih =>
    intro hc hd u hu
    simp only [compute_membership_update, if_neg hnlt, if_pos hgt, List.mem_cons] at hu
    rcases hu with rfl | hu
    · exact hd (idd, dv) (List.mem_cons_self _ _)
    · exact ih hc (fun p hp => hd p (List.mem_cons_of_mem _ hp)) u hu
  | case6 ic cs idd vv ds hnlt hngt ih =>
    intro hc hd u hu
    simp only [compute_membership_update, if_neg hnlt, if_neg hngt, if_pos rfl] at hu
    exact ih (fun p hp => hc p (List.mem_cons_of_mem _ hp))
      (fun p hp => hd p (List.mem_cons_of_mem _ hp)) u hu
  | case7 ic cv cs idd dv ds hnlt hngt hne ih =>
    intro hc hd u hu
    simp only [compute_membership_update, if_neg hnlt, if_neg hngt, if_neg hne,
      List.mem_cons] at hu
    rcases hu with rfl | hu
    · exact hc (ic, cv) (List.mem_cons_self _ _)
    · exact ih (fun p hp => hc p (List.mem_cons_of_mem _ hp))
        (fun p hp => hd p (List.mem_cons_of_mem _ hp)) u hu

theorem apply_membership_update_cons {k : Nat} {v : MembershipInfo}
    (m : List (Nat × MembershipInfo)) (u : MembershipUpdate) (hk : k < u.id) :
    apply_membership_update ((k, v) :: m) u = (k, v) :: apply_membership_update m u := by
  have h1 : ¬ u.id < k := by omega
  have h2 : u.id ≠ k := by omega
  have h3 : k ≠ u.id := by omega
  unfold apply_membership_update
  by_cases hc0 : u.current_weight = 0
  · simp [hc0, insertSorted, h1, h2]
  · by_cases hn0 : u.new_weight = 0
    · simp [hc0, hn0, eraseKey, h3]
    · simp [hc0, hn0, setKey, h3]

/-- Updates whose ids all lie above a key leave an entry at that key in place. -/
theorem replay_frame {k : Nat} {v : MembershipInfo} :
    ∀ (us : List MembershipUpdate) (m : List (Nat × MembershipInfo)),
      (∀ u ∈ us, k < u.id) →
      replay_membership_updates us ((k, v) :: m) =
        (k, v) :: replay_membership_updates us m := by
  intro us
  induction us with
  | nil => intro m _; rfl
  | cons u rest ih =>
    intro m hb
    have hku : k < u.id := hb u (List.mem_cons_self _ _)
    show replay_membership_updates rest (apply_membership_update ((k, v) :: m) u) =
      (k, v) :: replay_membership_updates rest (apply_membership_update m u)
    rw [apply_membership_update_cons m u hku]
    exact ih _ (fun w hw => hb w (List.mem_cons_of_mem _ hw))

theorem sortedKeys_nil {β : Type} : SortedKeys ([] : List (Nat × β)) :=
  List.Pairwise.nil

theorem sortedKeys_tail {β : Type} {p : Nat × β} {t : List (Nat × β)}
    (h : SortedKeys (p :: t)) : SortedKeys t :=
  (List.pairwise_cons.mp h).2

theorem sortedKeys_head_lt {β : Type} {p : Nat × β} {t : List (Nat × β)}
    (h : SortedKeys (p :: t)) : ∀ q ∈ t, p.1 < q.1 :=
  (List.pairwise_cons.mp h).1

theorem weightsPositive_nil : WeightsPositive [] := by
  intro p hp
  simp at hp

theorem weightsPositive_tail {p : Nat × MembershipInfo} {t : List (Nat × MembershipInfo)}
    (h : WeightsPositive (p :: t)) : WeightsPositive t :=
  fun q hq => h q (List.mem_cons_of_mem _ hq)

/-- Replaying the computed diff onto the current membership yields exactly the
    desired membership. -/
theorem replay_compute_eq :
    ∀ (c d : List (Nat × MembershipInfo)),
      SortedKeys c → SortedKeys d → WeightsPositive c → WeightsPositive d →
      replay_membership_updates (compute_membership_update c d) c = d := by
  intro c d
  induction c, d using compute_membership_update.induct with
  | case1 =>
    intro _ _ _ _
    simp only [compute_membership_update]
    rfl
  | case2 i dv ds ih =>
    intro hc hd hcw hdw
    have hbound : ∀ u ∈ compute_membership_update [] ds, i < u.id :=
      compute_membership_update_id_bound i [] ds (by intro p hp; simp at hp)
        (sortedKeys_head_lt hd)
    simp only [compute_membership_update, replay_membership_updates]
    have happ : apply_membership_update []
        ⟨i, 0, dv.weight, WatchPort.invalid_watch, dv.watch⟩ = [(i, dv)] := by
      simp [apply_membership_update, insertSorted]
    rw [happ, replay_frame _ _ hbound,
      ih sortedKeys_nil (sortedKeys_tail hd) weightsPositive_nil (weightsPositive_tail hdw)]
  | case3 i cv cs ih =>
    intro hc hd hcw hdw
    have hw : cv.weight ≠ 0 := by
      have h1 : 1 ≤ cv.weight := hcw (i, cv) (List.mem_cons_self _ _)
      omega
    simp only [compute_membership_update, replay_membership_updates]
    have happ : apply_membership_update ((i, cv) :: cs)
        ⟨i, cv.weight, 0, cv.watch, WatchPort.invalid_watch⟩ = cs := by
      simp [apply_membership_update, hw, eraseKey]
    rw [happ,
      ih (sortedKeys_tail hc) sortedKeys_nil (weightsPositive_tail hcw) weightsPositive_nil]
  | case4 ic cv cs idd dv ds hlt ih =>
    intro hc hd hcw hdw
    have hw : cv.weight ≠ 0 := by
      have h1 : 1 ≤ cv.weight := hcw (ic, cv) (List.mem_cons_self _ _)
      omega
    simp only [compute_membership_update, if_pos hlt, replay_membership_updates]
    have happ : apply_membership_update ((ic, cv) :: cs)
        ⟨ic, cv.weight, 0, cv.watch, WatchPort.invalid_watch⟩ = cs := by
      simp [apply_membership_update, hw, eraseKey]
    rw [happ, ih (sortedKeys_tail hc) hd (weightsPositive_tail hcw) hdw]
  | case5 ic cv cs idd dv ds hnlt hgt ih =>
    intro hc hd hcw hdw
    have hbound : ∀ u ∈ compute_membership_update ((ic, cv) :: cs) ds, idd < u.id := by
      refine compute_membership_update_id_bound idd ((ic, cv) :: cs) ds ?_
        (sortedKeys_head_lt hd)
      intro p hp
      rcases List.mem_cons.mp hp with rfl | hp
      · exact hgt
      · have h1 : ic < p.1 := sortedKeys_head_lt hc p hp
        omega
    simp only [compute_membership_update, if_neg hnlt, if_pos hgt, replay_membership_updates]
    have happ : apply_membership_update ((ic, cv) :: cs)
        ⟨idd, 0, dv.weight, WatchPort.invalid_watch, dv.watch⟩
        = (idd, dv) :: (ic, cv) :: cs := by
      simp [apply_membership_update, insertSorted, hgt]
    rw [happ, replay_frame _ _ hbound,
      ih hc (sortedKeys_tail hd) hcw (weightsPositive_tail hdw)]
  | case6 ic cs idd vv ds hnlt hngt ih =>
    intro hc hd hcw hdw
    have heq : ic = idd := by omega
    subst heq
    have hbound : ∀ u ∈ compute_membership_update cs ds, ic < u.id :=
      compute_membership_update_id_bound ic cs ds (sortedKeys_head_lt hc)
        (sortedKeys_head_lt hd)
    simp only [compute_membership_update, if_neg hnlt, if_neg hngt,
      eq_self_iff_true, ite_true]
    rw [replay_frame _ _ hbound,
      ih (sortedKeys_tail hc) (sortedKeys_tail hd) (weightsPositive_tail hcw)
        (weightsPositive_tail hdw)]
  | case7 ic cv cs idd dv ds hnlt hngt hne ih =>
    intro hc hd hcw hdw
    have heq : ic = idd := by omega
    subst heq
    have hcw0 : cv.weight ≠ 0 := by
      have h1 : 1 ≤ cv.weight := hcw (ic, cv) (List.mem_cons_self _ _)
      omega
    have hdw0 : dv.weight ≠ 0 := by
      have h1 : 1 ≤ dv.weight := hdw (ic, dv) (List.mem_cons_self _ _)
      omega
    have hbound : ∀ u ∈ compute_membership_update cs ds, ic < u.id :=
      compute_membership_update_id_bound ic cs ds (sortedKeys_head_lt hc)
        (sortedKeys_head_lt hd)
    simp only [compute_membership_update, if_neg hnlt, if_neg hngt, if_neg hne,
      replay_membership_updates]
    have happ : apply_membership_update ((ic, cv) :: cs)
        ⟨ic, cv.weight, dv.weight, cv.watch, dv.watch⟩ = (ic, dv) :: cs := by
      simp [apply_membership_update, hcw0, hdw0, setKey]
    rw [happ, replay_frame _ _ hbound,
      ih (sortedKeys_tail hc) (sortedKeys_tail hd) (weightsPositive_tail hcw)
        (weightsPositive_tail hdw)]

/-- The diff output is in strictly ascending id order. -/
theorem compute_membership_update_ascending :
    ∀ (c d : List (Nat × MembershipInfo)), SortedKeys c → SortedKeys d →
      (compute_membership_update c d).Pairwise (fun u v => u.id < v.id) := by
  intro c d
  induction c, d using compute_membership_update.induct with
  | case1 =>
    intro _ _
    simp [compute_membership_update]
  | case2 i dv ds ih =>
    intro hc hd
    simp only [compute_membership_update]
    refine List.pairwise_cons.mpr ⟨?_, ih hc (sortedKeys_tail hd)⟩
    exact compute_membership_update_id_bound i [] ds (by intro p hp; simp at hp)
      (sortedKeys_head_lt hd)
  | case3 i cv cs ih =>
    intro hc hd
    simp only [compute_membership_update]
    refine List.pairwise_cons.mpr ⟨?_, ih (sortedKeys_tail hc) hd⟩
    exact compute_membership_update_id_bound i cs [] (sortedKeys_head_lt hc)
      (by intro p hp; simp at hp)
  | case4 ic cv cs idd dv ds hlt ih =>
    intro hc hd
    simp only [compute_membership_update, if_pos hlt]
    refine List.pairwise_cons.mpr ⟨?_, ih (sortedKeys_tail hc) hd⟩
    refine compute_membership_update_id_bound ic cs ((idd, dv) :: ds)
      (sortedKeys_head_lt hc) ?_
    intro p hp
    rcases List.mem_cons.mp hp with rfl | hp
    · exact hlt
    · have h1 : idd < p.1 := sortedKeys_head_lt hd p hp
      omega
  | case5 ic cv cs idd dv ds hnlt hgt ih =>
    intro hc hd
    simp only [compute_membership_update, if_neg hnlt, if_pos hgt]
    refine List.pairwise_cons.mpr ⟨?_, ih hc (sortedKeys_tail hd)⟩
    refine compute_membership_update_id_bound idd ((ic, cv) :: cs) ds ?_
      (sortedKeys_head_lt hd)
    intro p hp
    rcases List.mem_cons.mp hp with rfl | hp
    · exact hgt
    · have h1 : ic < p.1 := sortedKeys_head_lt hc p hp
      omega
  | case6 ic cs idd vv ds hnlt hngt ih =>
    intro hc hd
    simp only [compute_membership_update, if_neg hnlt, if_neg hngt,
      eq_self_iff_true, ite_true]
    exact ih (sortedKeys_tail hc) (sortedKeys_tail hd)
  | case7 ic cv cs idd dv ds hnlt hngt hne ih =>
    intro hc hd
    have heq : ic = idd := by omega
    subst heq
    simp only [compute_membership_update, if_neg hnlt, if_neg hngt, if_neg hne]
    refine List.pairwise_cons.mpr ⟨?_, ih (sortedKeys_tail hc) (sortedKeys_tail hd)⟩
    exact compute_membership_update_id_bound ic cs ds (sortedKeys_head_lt hc)
      (sortedKeys_head_lt hd)

/-- An update is in the diff output exactly when it is the per-id update the
    spec demands for its id. -/
theorem compute_membership_update_mem_iff :
    ∀ (c d : List (Nat × MembershipInfo)), SortedKeys c → SortedKeys d →
      ∀ u : MembershipUpdate,
        u ∈ compute_membership_update c d ↔ update_for_id u.id c d = some u := by
  intro c d
  induction c, d using compute_membership_update.induct with
  | case1 =>
    intro _ _ u
    simp [compute_membership_update, update_for_id, lookupKey]
  | case2 i dv ds ih =>
    intro hc hd u
    have hbound : ∀ w ∈ compute_membership_update [] ds, i < w.id :=
      compute_membership_update_id_bound i [] ds (by intro p hp; simp at hp)
        (sortedKeys_head_lt hd)
    have hhead : update_for_id i [] ((i, dv) :: ds)
        = some ⟨i, 0, dv.weight, WatchPort.invalid_watch, dv.watch⟩ := by
      simp [update_for_id, lookupKey]
    simp only [compute_membership_update, List.mem_cons]
    constructor
    · rintro (rfl | hmem)
      · exact hhead
      · have hne : i ≠ u.id := by
          have h1 : i < u.id := hbound u hmem
          omega
        rw [update_for_id_cons_right hne]
        exact (ih sortedKeys_nil (sortedKeys_tail hd) u).mp hmem
    · intro hrhs
      by_cases hui : u.id = i
      · rw [hui, hhead] at hrhs
        left
        exact (Option.some.inj hrhs).symm
      · rw [update_for_id_cons_right (fun hh => hui hh.symm)] at hrhs
        right
        exact (ih sortedKeys_nil (sortedKeys_tail hd) u).mpr hrhs
  | case3 i cv cs ih =>
    intro hc hd u
    have hbound : ∀ w ∈ compute_membership_update cs [], i < w.id :=
      compute_membership_update_id_bound i cs [] (sortedKeys_head_lt hc)
        (by intro p hp; simp at hp)
    have hhead : update_for_id i ((i, cv) :: cs) []
        = some ⟨i, cv.weight, 0, cv.watch, WatchPort.invalid_watch⟩ := by
      simp [update_for_id, lookupKey]
    simp only [compute_membership_update, List.mem_cons]
    constructor
    · rintro (rfl | hmem)
      · exact hhead
      · have hne : i ≠ u.id := by
          have h1 : i < u.id := hbound u hmem
          omega
        rw [update_for_id_cons_left hne]
        exact (ih (sortedKeys_tail hc) sortedKeys_nil u).mp hmem
    · intro hrhs
      by_cases hui : u.id = i
      · rw [hui, hhead] at hrhs
        left
        exact (Option.some.inj hrhs).symm
      · rw [update_for_id_cons_left (fun hh => hui hh.symm)] at hrhs
        right
        exact (ih (sortedKeys_tail hc) sortedKeys_nil u).mpr hrhs
  | case4 ic cv cs idd dv ds hlt ih =>
    intro hc hd u
    have hbound : ∀ w ∈ compute_membership_update cs ((idd, dv) :: ds), ic < w.id := by
      refine compute_membership_update_id_bound ic cs ((idd, dv) :: ds)
        (sortedKeys_head_lt hc) ?_
      intro p hp
      rcases List.mem_cons.mp hp with rfl | hp
      · exact hlt
      · have h1 : idd < p.1 := sortedKeys_head_lt hd p hp
        omega
    have hdnone : lookupKey ic ((idd, dv) :: ds) = none := by
      refine lookupKey_eq_none.mpr (not_mem_keysOf_of_lt ?_)
      intro p hp
      rcases List.mem_cons.mp hp with rfl | hp
      · exact hlt
      · have h1 : idd < p.1 := sortedKeys_head_lt hd p hp
        omega
    have hhead : update_for_id ic ((ic, cv) :: cs) ((idd, dv) :: ds)
        = some ⟨ic, cv.weight, 0, cv.watch, WatchPort.invalid_watch⟩ := by
      unfold update_for_id
      rw [lookupKey_cons_self, hdnone]
    simp only [compute_membership_update, if_pos hlt, List.mem_cons]
    constructor
    · rintro (rfl | hmem)
      · exact hhead
      · have hne : ic ≠ u.id := by
          have h1 : ic < u.id := hbound u hmem
          omega
        rw [update_for_id_cons_left hne]
        exact (ih (sortedKeys_tail hc) hd u).mp hmem
    · intro hrhs
      by_cases hui : u.id = ic
      · rw [hui, hhead] at hrhs
        left
        exact (Option.some.inj hrhs).symm
      · rw [update_for_id_cons_left (fun hh => hui hh.symm)] at hrhs
        right
        exact (ih (sortedKeys_tail hc) hd u).mpr hrhs
  | case5 ic cv cs idd dv ds hnlt hgt ih =>
    intro hc hd u
    have hbound : ∀ w ∈ compute_membership_update ((ic, cv) :: cs) ds, idd < w.id := by
      refine compute_membership_update_id_bound idd ((ic, cv) :: cs) ds ?_
        (sortedKeys_head_lt hd)
      intro p hp
      rcases List.mem_cons.mp hp with rfl | hp
      · exact hgt
      · have h1 : ic < p.1 := sortedKeys_head_lt hc p hp
        omega
    have hcnone : lookupKey idd ((ic, cv) :: cs) = none := by
      refine lookupKey_eq_none.mpr (not_mem_keysOf_of_lt ?_)
      intro p hp
      rcases List.mem_cons.mp hp with rfl | hp
      · exact hgt
      · have h1 : ic < p.1 := sortedKeys_head_lt hc p hp
        omega
    have hhead : update_for_id idd ((ic, cv) :: cs) ((idd, dv) :: ds)
        = some ⟨idd, 0, dv.weight, WatchPort.invalid_watch, dv.watch⟩ := by
      unfold update_for_id
      rw [lookupKey_cons_self, hcnone]
    simp only [compute_membership_update, if_neg hnlt, if_pos hgt, List.mem_cons]
    constructor
    · rintro (rfl | hmem)
      · exact hhead
      · have hne : idd ≠ u.id := by
          have h1 : idd < u.id := hbound u hmem
          omega
        rw [update_for_id_cons_right hne]
        exact (ih hc (sortedKeys_tail hd) u).mp hmem
    · intro hrhs
      by_cases hui : u.id = idd
      · rw [hui, hhead] at hrhs
        left
        exact (Option.some.inj hrhs).symm
      · rw [update_for_id_cons_right (fun hh => hui hh.symm)] at hrhs
        right
        exact (ih hc (sortedKeys_tail hd) u).mpr hrhs
  | case6 ic cs idd vv ds hnlt hngt ih =>
    intro hc hd u
    have heq : ic = idd := by omega
    subst heq
    have hbound : ∀ w ∈ compute_membership_update cs ds, ic < w.id :=
      compute_membership_update_id_bound ic cs ds (sortedKeys_head_lt hc)
        (sortedKeys_head_lt hd)
    have hnone : update_for_id ic ((ic, vv) :: cs) ((ic, vv) :: ds) = none := by
      unfold update_for_id
      rw [lookupKey_cons_self, lookupKey_cons_self]
      simp
    simp only [compute_membership_update, if_neg hnlt, if_neg hngt,
      eq_self_iff_true, ite_true]
    constructor
    · intro hmem
      have hne : ic ≠ u.id := by
        have h1 : ic < u.id := hbound u hmem
        omega
      rw [update_for_id_cons_left hne, update_for_id_cons_right hne]
      exact (ih (sortedKeys_tail hc) (sortedKeys_tail hd) u).mp hmem
    · intro hrhs
      by_cases hui : u.id = ic
      · rw [hui, hnone] at hrhs
        exact Option.noConfusion hrhs
      · rw [update_for_id_cons_left (fun hh => hui hh.symm),
          update_for_id_cons_right (fun hh => hui hh.symm)] at hrhs
        exact (ih (sortedKeys_tail hc) (sortedKeys_tail hd) u).mpr hrhs
  | case7 ic cv cs idd dv ds hnlt hngt hne ih =>
    intro hc hd u
    have heq : ic = idd := by omega
    subst heq
    have hbound : ∀ w ∈ compute_membership_update cs ds, ic < w.id :=
      compute_membership_update_id_bound ic cs ds (sortedKeys_head_lt hc)
        (sortedKeys_head_lt hd)
    have hhead : update_for_id ic ((ic, cv) :: cs) ((ic, dv) :: ds)
        = some ⟨ic, cv.weight, dv.weight, cv.watch, dv.watch⟩ := by
      unfold update_for_id
      rw [lookupKey_cons_self, lookupKey_cons_self]
      simp [hne]
    simp only [compute_membership_update, if_neg hnlt, if_neg hngt, if_neg hne,
      List.mem_cons]
    constructor
    · rintro (rfl | hmem)
      · exact hhead
      · have hne2 : ic ≠ u.id := by
          have h1 : ic < u.id := hbound u hmem
          omega
        rw [update_for_id_cons_left hne2, update_for_id_cons_right hne2]
        exact (ih (sortedKeys_tail hc) (sortedKeys_tail hd) u).mp hmem
    · intro hrhs
      by_cases hui : u.id = ic
      · rw [hui, hhead] at hrhs
        left
        exact (Option.some.inj hrhs).symm
      · rw [update_for_id_cons_left (fun hh => hui hh.symm),
          update_for_id_cons_right (fun hh => hui hh.symm)] at hrhs
        right
        exact (ih (sortedKeys_tail hc) (sortedKeys_tail hd) u).mpr hrhs

/-- C2: For every pair of ordered, duplicate-free (and weight-validated)
    membership maps, applying the update list returned by
    `compute_membership_update(current, desired)` to `current` — performing
    its inserts, changes, and deletes in order — yields exactly `desired`.
    The function is pure: replay acts on the returned list only. -/
theorem membership_update_replay_exact (c d : List (Nat × MembershipInfo))
    (hc : SortedKeys c) (hd : SortedKeys d)
    (hcw : WeightsPositive c) (hdw : WeightsPositive d) :
    replay_membership_updates (compute_membership_update c d) c = d :=
  replay_compute_eq c d hc hd hcw hdw

/-- Sample watch descriptor used by the concrete diff-engine scenarios. -/
def watchW : WatchPort := ⟨.kWatch, 7, "", 3⟩

/-- Concrete current membership: member 1 at weight 2, member 3 at weight 1. -/
def currentW : List (Nat × MembershipInfo) :=
  [(1, ⟨2, WatchPort.invalid_watch⟩), (3, ⟨1, watchW⟩)]

/-- Concrete desired membership: member 1 unchanged, member 2 inserted at
    weight 4, member 3 changed to weight 2. -/
def desiredW : List (Nat × MembershipInfo) :=
  [(1, ⟨2, WatchPort.invalid_watch⟩), (2, ⟨4, watchW⟩), (3, ⟨2, watchW⟩)]

/-- Replaying the computed diff on the concrete scenario reproduces the
    desired membership. -/
theorem membership_update_replay_exact_witness :
    SortedKeys currentW ∧ SortedKeys desiredW ∧
    WeightsPositive currentW ∧ WeightsPositive desiredW ∧
    replay_membership_updates (compute_membership_update currentW desiredW) currentW
      = desiredW :=
  ⟨by decide, by decide, by decide, by decide,
   membership_update_replay_exact currentW desiredW (by decide) (by decide)
     (by decide) (by decide)⟩

/-- C3: `compute_membership_update(current, desired)` emits an insert (absent
    current sentinel) for every id present only in desired, a change carrying
    old and new values for every id in both maps with differing weight or
    watch, and a delete (absent new sentinel) for every id present only in
    current; ids absent from both or identical in both are never emitted, and
    the output is in strictly ascending id order. -/
theorem compute_membership_update_characterization
    (c d : List (Nat × MembershipInfo)) (hc : SortedKeys c) (hd : SortedKeys d) :
    (compute_membership_update c d).Pairwise (fun u v => u.id < v.id) ∧
    (∀ u : MembershipUpdate,
      u ∈ compute_membership_update c d ↔ update_for_id u.id c d = some u) :=
  ⟨compute_membership_update_ascending c d hc hd,
   compute_membership_update_mem_iff c d hc hd⟩

/-- The characterization instantiated on the concrete scenario. -/
theorem compute_membership_update_characterization_witness :
    SortedKeys currentW ∧ SortedKeys desiredW ∧
    ((compute_membership_update currentW desiredW).Pairwise (fun u v => u.id < v.id) ∧
     (∀ u : MembershipUpdate,
       u ∈ compute_membership_update currentW desiredW ↔
         update_for_id u.id currentW desiredW = some u)) :=
  ⟨by decide, by decide,
   compute_membership_update_characterization currentW desiredW (by decide) (by decide)⟩

/-! ### WeightedMemberStore: per-member replica emulation

One manual-style member's weighted-replica state (`MemberState` of
`ActionProfMemberMap` plus the device's handle allocator), modelled from the
spec: the member keeps `W` replica handles where `W` is the highest populated
key of its weight-count histogram; a group starting to reference the member at
weight `w` increments the histogram at `w` and creates the missing replicas;
a group dropping a reference at weight `w` decrements the histogram (erasing
the key when its count reaches zero), recomputes the maximum and purges
exactly the now-unused trailing replicas. -/

structure WeightedMember where
  handles : List Nat
  weight_counts : List (Nat × Nat)
  next_handle : Nat
  deriving DecidableEq, Repr

/-- Increment the histogram count at a weight (inserting the key at count 1
    when absent). -/
def inc_weight (w : Nat) : List (Nat × Nat) → List (Nat × Nat)
  | [] => [(w, 1)]
  | (a, c) :: t => if a = w then (a, c + 1) :: t else (a, c) :: inc_weight w t

/-- Decrement the histogram count at a weight, erasing the key when its count
    drops to zero (no effect when the key is absent). -/
def dec_weight (w : Nat) : List (Nat × Nat) → List (Nat × Nat)
  | [] => []
  | (a, c) :: t =>
    if a = w then (if c ≤ 1 then t else (a, c - 1) :: t)
    else (a, c) :: dec_weight w t

/-- Largest element of a list of naturals (0 when empty). -/
def nat_list_max (l : List Nat) : Nat := l.foldr max 0

/-- The histogram's highest populated key (0 when the histogram is empty). -/
def max_weight (h : List (Nat × Nat)) : Nat := nat_list_max (keysOf h)

/-- Bring the replica-handle list to the length dictated by the histogram:
    create the missing replicas (fresh device handles appended in creation
    order) when below the maximum, purge the trailing unused replicas when
    above it. -/
def adjust_replicas (s : WeightedMember) : WeightedMember :=
  if s.handles.length < max_weight s.weight_counts then
    { s with
      handles := s.handles ++
        (List.range (max_weight s.weight_counts - s.handles.length)).map
          (fun j => s.next_handle + j),
      next_handle := s.next_handle + (max_weight s.weight_counts - s.handles.length) }
  else
    { s with handles := s.handles.take (max_weight s.weight_counts) }

/-- One group-side event affecting this member: a group starts referencing it
    at some weight (group create/modify), or stops (group delete/modify). -/
inductive GroupOp where
  | addRef (w : Nat)
  | dropRef (w : Nat)
  deriving DecidableEq, Repr

def member_step (s : WeightedMember) : GroupOp → WeightedMember
  | .addRef w => adjust_replicas { s with weight_counts := inc_weight w s.weight_counts }
  | .dropRef w => adjust_replicas { s with weight_counts := dec_weight w s.weight_counts }

/-- A freshly created member: no replicas, empty histogram. -/
def member_init : WeightedMember := ⟨[], [], 0⟩

def member_run (ops : List GroupOp) : WeightedMember :=
  ops.foldl member_step member_init

/-- The multiset (as a list) of weights requested by the groups currently
    containing the member, read off the operation history alone. -/
def requested_step (l : List Nat) : GroupOp → List Nat
  | .addRef w => w :: l
  | .dropRef w => l.erase w

def requested_weights (ops : List GroupOp) : List Nat :=
  ops.foldl requested_step []

/-- The histogram faithfully represents a multiset of requested weights:
    duplicate-free keys, strictly positive counts, and the count stored for
    each weight equals its multiplicity. -/
def HistRepresents (h : List (Nat × Nat)) (l : List Nat) : Prop :=
  (keysOf h).Nodup ∧ (∀ p ∈ h, 1 ≤ p.2) ∧
    ∀ w, List.count w l = (lookupKey w h).getD 0

theorem le_nat_list_max {x : Nat} {l : List Nat} (h : x ∈ l) : x ≤ nat_list_max l := by
  induction l with
  | nil => simp at h
  | cons a t ih =>
    rcases List.mem_cons.mp h with rfl | h
    · exact Nat.le_max_left _ _
    · exact le_trans (ih h) (Nat.le_max_right _ _)

theorem nat_list_max_le {b : Nat} {l : List Nat} (h : ∀ x ∈ l, x ≤ b) :
    nat_list_max l ≤ b := by
  induction l with
  | nil => exact Nat.zero_le b
  | cons a t ih =>
    have : max a (nat_list_max t) ≤ b :=
      Nat.max_le.mpr ⟨h a (List.mem_cons_self _ _),
        ih (fun x hx => h x (List.mem_cons_of_mem _ hx))⟩
    exact this

theorem nat_list_max_congr {l1 l2 : List Nat} (h : ∀ x, x ∈ l1 ↔ x ∈ l2) :
    nat_list_max l1 = nat_list_max l2 :=
  Nat.le_antisymm
    (nat_list_max_le (fun x hx => le_nat_list_max ((h x).mp hx)))
    (nat_list_max_le (fun x hx => le_nat_list_max ((h x).mpr hx)))

theorem nat_list_max_erase_le (l : List Nat) (w : Nat) :
    nat_list_max (l.erase w) ≤ nat_list_max l :=
  nat_list_max_le (fun _ hx => le_nat_list_max ((l.erase_sublist w).mem hx))

theorem lookupKey_inc_weight_self (w : Nat) (h : List (Nat × Nat)) :
    lookupKey w (inc_weight w h) = some ((lookupKey w h).getD 0 + 1) := by
  induction h with
  | nil => simp [inc_weight, lookupKey]
  | cons p t ih =>
    obtain ⟨a, c⟩ := p
    by_cases haw : a = w
    · subst haw
      simp [inc_weight, lookupKey]
    · simp [inc_weight, lookupKey, haw, ih]

theorem lookupKey_inc_weight_ne {x w : Nat} (hxw : x ≠ w) (h : List (Nat × Nat)) :
    lookupKey x (inc_weight w h) = lookupKey x h := by
  have hwx : ¬ w = x := fun hh => hxw hh.symm
  induction h with
  | nil => simp [inc_weight, lookupKey, hwx]
  | cons p t ih =>
    obtain ⟨a, c⟩ := p
    by_cases haw : a = w
    · subst haw
      simp [inc_weight, lookupKey, hwx]
    · by_cases hax : a = x <;> simp [inc_weight, lookupKey, haw, hax, hxw, ih]

theorem keysOf_inc_weight (w : Nat) (h : List (Nat × Nat)) :
    keysOf (inc_weight w h) = if w ∈ keysOf h then keysOf h else keysOf h ++ [w] := by
  induction h with
  | nil => simp [inc_weight, keysOf]
  | cons p t ih =>
    obtain ⟨a, c⟩ := p
    by_cases haw : a = w
    · subst haw
      simp [inc_weight, keysOf_cons]
    · have hwa : ¬ w = a := fun hh => haw hh.symm
      by_cases hmem : w ∈ keysOf t <;>
        simp [inc_weight, keysOf_cons, haw, hwa, hmem, ih]

theorem pos_inc_weight {w : Nat} {h : List (Nat × Nat)}
    (hp : ∀ p ∈ h, 1 ≤ p.2) : ∀ p ∈ inc_weight w h, 1 ≤ p.2 := by
  induction h with
  | nil =>
    intro p hp2
    simp [inc_weight] at hp2
    subst hp2
    simp
  | cons q t ih =>
    obtain ⟨a, c⟩ := q
    intro p hp2
    by_cases haw : a = w
    · subst haw
      simp only [inc_weight, if_pos rfl] at hp2
      rcases List.mem_cons.mp hp2 with rfl | hp2
      · simp
      · exact hp p (List.mem_cons_of_mem _ hp2)
    · simp only [inc_weight, if_neg haw] at hp2
      rcases List.mem_cons.mp hp2 with rfl | hp2
      · exact hp _ (List.mem_cons_self _ _)
      · exact ih (fun q hq => hp q (List.mem_cons_of_mem _ hq)) p hp2

theorem lookupKey_dec_weight_self {w : Nat} {h : List (Nat × Nat)}
    (hnd : (keysOf h).Nodup) :
    lookupKey w (dec_weight w h)
      = match lookupKey w h with
        | none => none
        | some c => if c ≤ 1 then none else some (c - 1) := by
  induction h with
  | nil => simp [dec_weight, lookupKey]
  | cons p t ih =>
    obtain ⟨a, c⟩ := p
    rw [keysOf_cons] at hnd
    have hnd2 := List.nodup_cons.mp hnd
    by_cases haw : a = w
    · subst haw
      by_cases hc1 : c ≤ 1
      · simp only [dec_weight, if_pos rfl, if_pos hc1, lookupKey_cons_self]
        have : lookupKey a t = none := by
          refine lookupKey_eq_none.mpr ?_
          exact hnd2.1
        simp [this, hc1]
      · simp [dec_weight, lookupKey, hc1]
    · simp only [dec_weight, if_neg haw, lookupKey_cons_ne haw]
      exact ih hnd2.2

theorem lookupKey_dec_weight_ne {x w : Nat} (hxw : x ≠ w) (h : List (Nat × Nat)) :
    lookupKey x (dec_weight w h) = lookupKey x h := by
  induction h with
  | nil => simp [dec_weight]
  | cons p t ih =>
    obtain ⟨a, c⟩ := p
    by_cases haw : a = w
    · subst haw
      have hax : a ≠ x := fun hh => hxw hh.symm
      by_cases hc1 : c ≤ 1 <;>
        simp [dec_weight, hc1, lookupKey_cons_ne hax]
    · by_cases hax : a = x
      · subst hax
        simp [dec_weight, haw, lookupKey_cons_self]
      · simp [dec_weight, haw, lookupKey_cons_ne hax, ih]

theorem keysOf_dec_weight_sublist (w : Nat) (h : List (Nat × Nat)) :
    List.Sublist (keysOf (dec_weight w h)) (keysOf h) := by
  induction h with
  | nil => simp [dec_weight, keysOf]
  | cons p t ih =>
    obtain ⟨a, c⟩ := p
    by_cases haw : a = w
    · subst haw
      by_cases hc1 : c ≤ 1
      · simp only [dec_weight, if_pos rfl, if_pos hc1, keysOf_cons]
        exact List.sublist_cons_self _ _
      · simp only [dec_weight, if_pos rfl, if_neg hc1, keysOf_cons]
        exact List.Sublist.cons₂ _ (List.Sublist.refl _)
    · simp only [dec_weight, if_neg haw, keysOf_cons]
      exact List.Sublist.cons₂ _ ih

theorem pos_dec_weight {w : Nat} {h : List (Nat × Nat)}
    (hp : ∀ p ∈ h, 1 ≤ p.2) : ∀ p ∈ dec_weight w h, 1 ≤ p.2 := by
  induction h with
  | nil => intro p hp2; simp [dec_weight] at hp2
  | cons q t ih =>
    obtain ⟨a, c⟩ := q
    intro p hp2
    by_cases haw : a = w
    · subst haw
      by_cases hc1 : c ≤ 1
      · simp only [dec_weight, if_pos rfl, if_pos hc1] at hp2
        exact hp p (List.mem_cons_of_mem _ hp2)
      · simp only [dec_weight, if_pos rfl, if_neg hc1] at hp2
        rcases List.mem_cons.mp hp2 with rfl | hp2
        · simp
          omega
        · exact hp p (List.mem_cons_of_mem _ hp2)
    · simp only [dec_weight, if_neg haw] at hp2
      rcases List.mem_cons.mp hp2 with rfl | hp2
      · exact hp _ (List.mem_cons_self _ _)
      · exact ih (fun q hq => hp q (List.mem_cons_of_mem _ hq)) p hp2

theorem histRepresents_nil : HistRepresents [] [] := by
  refine ⟨by simp [keysOf], by simp, ?_⟩
  intro w
  simp [lookupKey]

theorem histRepresents_inc {h : List (Nat × Nat)} {l : List Nat} {w : Nat}
    (hr : HistRepresents h l) : HistRepresents (inc_weight w h) (w :: l) := by
  obtain ⟨hnd, hpos, hcount⟩ := hr
  refine ⟨?_, pos_inc_weight hpos, ?_⟩
  · rw [keysOf_inc_weight]
    by_cases hmem : w ∈ keysOf h
    · simp [hmem, hnd]
    · simp only [hmem, if_neg]
      refine List.Nodup.append hnd (by simp) (List.disjoint_singleton.mpr hmem)
  · intro x
    by_cases hxw : x = w
    · subst hxw
      rw [List.count_cons, lookupKey_inc_weight_self]
      simp [hcount x]
    · have hwx : (w == x) = false := by
        simp
        exact fun hh => hxw hh.symm
      rw [List.count_cons, lookupKey_inc_weight_ne hxw, hwx]
      simp [hcount x]

theorem histRepresents_dec {h : List (Nat × Nat)} {l : List Nat} {w : Nat}
    (hr : HistRepresents h l) : HistRepresents (dec_weight w h) (l.erase w) := by
  obtain ⟨hnd, hpos, hcount⟩ := hr
  refine ⟨hnd.sublist (keysOf_dec_weight_sublist w h), pos_dec_weight hpos, ?_⟩
  intro x
  by_cases hxw : x = w
  · subst hxw
    rw [List.count_erase, lookupKey_dec_weight_self hnd]
    cases hcase : lookupKey x h with
    | none =>
      have h0 : List.count x l = 0 := by
        rw [hcount x, hcase]
        rfl
      simp [h0]
    | some c =>
      have hc1 : 1 ≤ c := hpos (x, c) (lookupKey_mem hcase)
      have hcx : List.count x l = c := by
        rw [hcount x, hcase]
        rfl
      by_cases hle : c ≤ 1
      · simp only [if_pos hle]
        simp [hcx]
        omega
      · simp only [if_neg hle]
        simp [hcx]
  · have hwx : (w == x) = false := by
      simp
      exact fun hh => hxw hh.symm
    rw [List.count_erase, lookupKey_dec_weight_ne hxw, hwx]
    simp [hcount x]

theorem max_weight_eq {h : List (Nat × Nat)} {l : List Nat}
    (hr : HistRepresents h l) : max_weight h = nat_list_max l := by
  obtain ⟨hnd, hpos, hcount⟩ := hr
  refine nat_list_max_congr ?_
  intro x
  constructor
  · intro hx
    cases hcase : lookupKey x h with
    | none => exact absurd (lookupKey_eq_none.mp hcase) (by simpa using hx)
    | some c =>
      have hc1 : 1 ≤ c := hpos (x, c) (lookupKey_mem hcase)
      have hcx : List.count x l = c := by
        rw [hcount x, hcase]
        rfl
      have : List.count x l ≠ 0 := by omega
      exact (List.count_eq_zero.not_left).mp this
  · intro hx
    have : List.count x l ≠ 0 := fun hh => (List.count_eq_zero.mp hh) hx
    cases hcase : lookupKey x h with
    | none =>
      exfalso
      apply this
      rw [hcount x, hcase]
      rfl
    | some c =>
      have : x ∈ keysOf h := by
        have := lookupKey_mem hcase
        exact key_mem_keysOf this
      exact this

/-- The replica-store invariant relating a member's state to the multiset of
    weights requested for it by the groups currently containing it. -/
def MemberInv (s : WeightedMember) (l : List Nat) : Prop :=
  HistRepresents s.weight_counts l ∧ s.handles.length = nat_list_max l

theorem adjust_replicas_weight_counts (s : WeightedMember) :
    (adjust_replicas s).weight_counts = s.weight_counts := by
  unfold adjust_replicas
  by_cases h : s.handles.length < max_weight s.weight_counts <;> simp [h]

theorem adjust_replicas_length (s : WeightedMember) :
    (adjust_replicas s).handles.length = max_weight s.weight_counts := by
  unfold adjust_replicas
  by_cases h : s.handles.length < max_weight s.weight_counts
  · simp only [if_pos h, List.length_append, List.length_map, List.length_range]
    omega
  · simp only [if_neg h, List.length_take]
    omega

theorem adjust_replicas_handles_of_no_growth {s : WeightedMember}
    (h : ¬ s.handles.length < max_weight s.weight_counts) :
    (adjust_replicas s).handles = s.handles.take (max_weight s.weight_counts) := by
  unfold adjust_replicas
  rw [if_neg h]

theorem member_step_inv {s : WeightedMember} {l : List Nat} (op : GroupOp)
    (h : MemberInv s l) :
    MemberInv (member_step s op) (requested_step l op) := by
  cases op with
  | addRef w =>
    have hr2 : HistRepresents (inc_weight w s.weight_counts) (w :: l) :=
      histRepresents_inc h.1
    constructor
    · show HistRepresents (adjust_replicas _).weight_counts _
      rw [adjust_replicas_weight_counts]
      exact hr2
    · show (adjust_replicas _).handles.length = _
      rw [adjust_replicas_length]
      exact max_weight_eq hr2
  | dropRef w =>
    have hr2 : HistRepresents (dec_weight w s.weight_counts) (l.erase w) :=
      histRepresents_dec h.1
    constructor
    · show HistRepresents (adjust_replicas _).weight_counts _
      rw [adjust_replicas_weight_counts]
      exact hr2
    · show (adjust_replicas _).handles.length = _
      rw [adjust_replicas_length]
      exact max_weight_eq hr2

theorem member_init_inv : MemberInv member_init [] :=
  ⟨histRepresents_nil, rfl⟩

theorem member_run_inv :
    ∀ (ops : List GroupOp) (s : WeightedMember) (l : List Nat), MemberInv s l →
      MemberInv (ops.foldl member_step s) (ops.foldl requested_step l) := by
  intro ops
  induction ops with
  | nil => intro s l h; exact h
  | cons op rest ih =>
    intro s l h
    exact ih _ _ (member_step_inv op h)

/-- C1: For every manual-style member, after any sequence of group
    create/modify/delete events the number of replica handles stored equals
    the maximum weight requested for it across all groups currently
    containing it (0 when none); and on any drop of a reference the maximum
    is recomputed from the weight-count histogram and the new handle list is
    exactly the prefix of the old one of that recomputed length — exactly the
    now-unused trailing replicas are purged. -/
theorem weighted_member_store_replicas (ops : List GroupOp) :
    (member_run ops).handles.length = nat_list_max (requested_weights ops) ∧
    ∀ w, (member_step (member_run ops) (GroupOp.dropRef w)).handles
        = (member_run ops).handles.take
            (nat_list_max (requested_weights (ops ++ [GroupOp.dropRef w]))) := by
  have hinv : MemberInv (member_run ops) (requested_weights ops) :=
    member_run_inv ops member_init [] member_init_inv
  constructor
  · exact hinv.2
  · intro w
    have hreq : requested_weights (ops ++ [GroupOp.dropRef w])
        = (requested_weights ops).erase w := by
      unfold requested_weights
      rw [List.foldl_append]
      rfl
    rw [hreq]
    have hr2 : HistRepresents (dec_weight w (member_run ops).weight_counts)
        ((requested_weights ops).erase w) := histRepresents_dec hinv.1
    have hmax2 : max_weight (dec_weight w (member_run ops).weight_counts)
        = nat_list_max ((requested_weights ops).erase w) := max_weight_eq hr2
    have hle : nat_list_max ((requested_weights ops).erase w)
        ≤ nat_list_max (requested_weights ops) := nat_list_max_erase_le _ _
    have hlen := hinv.2
    have hnlt : ¬ (member_run ops).handles.length
        < max_weight (dec_weight w (member_run ops).weight_counts) := by
      rw [hmax2]
      omega
    show (adjust_replicas { member_run ops with
        weight_counts := dec_weight w (member_run ops).weight_counts }).handles = _
    rw [adjust_replicas_handles_of_no_growth hnlt, hmax2]

/-- The spec's worked scenario: groups requesting weights {2, 5, 3} give 5
    replicas; deleting the weight-5 group recomputes the maximum to 3 and
    purges exactly the 2 trailing replicas. -/
example :
    (member_run [GroupOp.addRef 2, GroupOp.addRef 5, GroupOp.addRef 3]).handles.length = 5 ∧
    (member_run [GroupOp.addRef 2, GroupOp.addRef 5, GroupOp.addRef 3,
      GroupOp.dropRef 5]).handles.length = 3 ∧
    (member_run [GroupOp.addRef 2, GroupOp.addRef 5, GroupOp.addRef 3,
      GroupOp.dropRef 5]).handles
      = (member_run [GroupOp.addRef 2, GroupOp.addRef 5, GroupOp.addRef 3]).handles.take 3 := by
  decide

/-! ### ActionProfMemberMap: id → member state, handle → id

The manual-style member store proper: a map from member id to `MemberState`
(action payload and replica-handle list) plus a reverse index from every
replica handle to its owning member id, kept in lockstep.  Operation bodies
are modelled from the spec (the header declares `add`, `add_handle`,
`remove_handle`, `remove`, `retrieve_id`). -/

theorem lookupKey_eraseKey_self {β : Type} {k : Nat} {l : List (Nat × β)}
    (hnd : (keysOf l).Nodup) : lookupKey k (eraseKey k l) = none := by
  refine lookupKey_eq_none.mpr ?_
  intro hmem
  obtain ⟨p, hp, hpk⟩ := List.mem_map.mp hmem
  exact ne_key_of_mem_eraseKey hnd hp hpk

theorem mem_eraseKey_of_ne {β : Type} {k : Nat} {q : Nat × β} {l : List (Nat × β)}
    (hq : q ∈ l) (hne : q.1 ≠ k) : q ∈ eraseKey k l := by
  induction l with
  | nil => simp at hq
  | cons p t ih =>
    obtain ⟨a, b⟩ := p
    rcases List.mem_cons.mp hq with rfl | hq
    · have hak : a ≠ k := hne
      simp only [eraseKey, if_neg hak]
      exact List.mem_cons_self _ _
    · by_cases hak : a = k
      · simp only [eraseKey, if_pos hak]
        exact hq
      · simp only [eraseKey, if_neg hak]
        exact List.mem_cons_of_mem _ (ih hq)

theorem keysOf_setKey {β : Type} (k : Nat) (v : β) (l : List (Nat × β)) :
    keysOf (setKey k v l) = keysOf l := by
  induction l with
  | nil => simp [setKey]
  | cons p t ih =>
    obtain ⟨a, b⟩ := p
    by_cases hak : a = k
    · subst hak
      simp [setKey, keysOf_cons]
    · simp [setKey, hak, keysOf_cons, ih]

theorem mem_setKey_cases {β : Type} {k : Nat} {v : β} {q : Nat × β} {l : List (Nat × β)}
    (hnd : (keysOf l).Nodup) (hq : q ∈ setKey k v l) :
    q = (k, v) ∨ (q ∈ l ∧ q.1 ≠ k) := by
  induction l with
  | nil => simp [setKey] at hq
  | cons p t ih =>
    obtain ⟨a, b⟩ := p
    rw [keysOf_cons] at hnd
    have hnd2 := List.nodup_cons.mp hnd
    by_cases hak : a = k
    · subst hak
      simp only [setKey, if_pos rfl] at hq
      rcases List.mem_cons.mp hq with rfl | hq
      · exact Or.inl rfl
      · refine Or.inr ⟨List.mem_cons_of_mem _ hq, ?_⟩
        intro hqk
        exact hnd2.1 (hqk ▸ key_mem_keysOf (show (q.1, q.2) ∈ t from hq))
    · simp only [setKey, if_neg hak] at hq
      rcases List.mem_cons.mp hq with rfl | hq
      · exact Or.inr ⟨List.mem_cons_self _ _, hak⟩
      · rcases ih hnd2.2 hq with h | ⟨h1, h2⟩
        · exact Or.inl h
        · exact Or.inr ⟨List.mem_cons_of_mem _ h1, h2⟩

theorem mem_setKey_of_ne {β : Type} {k : Nat} {v : β} {q : Nat × β} {l : List (Nat × β)}
    (hq : q ∈ l) (hne : q.1 ≠ k) : q ∈ setKey k v l := by
  induction l with
  | nil => simp at hq
  | cons p t ih =>
    obtain ⟨a, b⟩ := p
    rcases List.mem_cons.mp hq with rfl | hq
    · have hak : a ≠ k := hne
      simp only [setKey, if_neg hak]
      exact List.mem_cons_self _ _
    · by_cases hak : a = k
      · simp only [setKey, if_pos hak]
        exact List.mem_cons_of_mem _ hq
      · simp only [setKey, if_neg hak]
        exact List.mem_cons_of_mem _ (ih hq)

theorem mem_setKey_self {β : Type} {k : Nat} {v w : β} {l : List (Nat × β)}
    (hq : (k, w) ∈ l) : (k, v) ∈ setKey k v l := by
  induction l with
  | nil => simp at hq
  | cons p t ih =>
    obtain ⟨a, b⟩ := p
    by_cases hak : a = k
    · simp only [setKey, if_pos hak]
      exact List.mem_cons_self _ _
    · rcases List.mem_cons.mp hq with heq | hq
      · cases heq
        exact absurd rfl hak
      · simp only [setKey, if_neg hak]
        exact List.mem_cons_of_mem _ (ih hq)

/-- Erase a batch of keys (used when a member is removed together with all of
    its replica handles). -/
def eraseKeys {β : Type} (ks : List Nat) (l : List (Nat × β)) : List (Nat × β) :=
  ks.foldl (fun acc k => eraseKey k acc) l

theorem eraseKeys_sublist {β : Type} (ks : List Nat) (l : List (Nat × β)) :
    List.Sublist (eraseKeys ks l) l := by
  induction ks generalizing l with
  | nil => exact List.Sublist.refl l
  | cons k t ih =>
    exact List.Sublist.trans (ih (eraseKey k l)) (eraseKey_sublist k l)

theorem nodup_keysOf_eraseKeys {β : Type} {ks : List Nat} {l : List (Nat × β)}
    (hnd : (keysOf l).Nodup) : (keysOf (eraseKeys ks l)).Nodup :=
  hnd.sublist ((eraseKeys_sublist ks l).map Prod.fst)

theorem lookupKey_eraseKeys {β : Type} (ks : List Nat) {l : List (Nat × β)} (x : Nat)
    (hnd : (keysOf l).Nodup) :
    lookupKey x (eraseKeys ks l) = if x ∈ ks then none else lookupKey x l := by
  induction ks generalizing l with
  | nil => simp [eraseKeys]
  | cons k t ih =>
    show lookupKey x (eraseKeys t (eraseKey k l)) = _
    rw [ih (nodup_keysOf_eraseKey hnd)]
    by_cases hxt : x ∈ t
    · simp [hxt]
    · by_cases hxk : x = k
      · subst hxk
        simp [hxt, lookupKey_eraseKey_self hnd]
      · simp [hxt, hxk, lookupKey_eraseKey_ne l hxk]

/-- One logical manual-style member: action payload (opaque), ordered replica
    handle list, weight-count histogram. -/
structure MemberState where
  action_data : Nat
  handles : List Nat
  weight_counts : List (Nat × Nat)
  deriving DecidableEq, Repr

structure ActionProfMemberMap where
  members : List (Nat × MemberState)
  handle_to_id : List (Nat × Nat)
  deriving DecidableEq, Repr

namespace ActionProfMemberMap

def empty : ActionProfMemberMap := ⟨[], []⟩

/-- Lookup the owning member id of a replica handle (absent when unowned). -/
def retrieve_id (m : ActionProfMemberMap) (h : Nat) : Option Nat :=
  lookupKey h m.handle_to_id

/-- First replica handle of a member, if any. -/
def get_first_handle (m : ActionProfMemberMap) (id : Nat) : Option Nat :=
  (lookupKey id m.members).bind (fun ms => ms.handles.head?)

/-- Modelled from the spec: register a freshly created member under its id
    with its first device handle, failing when the id or handle is already
    registered. -/
def add (m : ActionProfMemberMap) (id h a : Nat) : Bool × ActionProfMemberMap :=
  if (lookupKey id m.members).isSome || (lookupKey h m.handle_to_id).isSome then
    (false, m)
  else
    (true, ⟨(id, ⟨a, [h], []⟩) :: m.members, (h, id) :: m.handle_to_id⟩)

/-- Modelled from the spec: append a newly created replica handle to an
    existing member and index it, failing when the member is unknown or the
    handle is already owned. -/
def add_handle (m : ActionProfMemberMap) (h id : Nat) : Bool × ActionProfMemberMap :=
  match lookupKey id m.members with
  | none => (false, m)
  | some ms =>
    if (lookupKey h m.handle_to_id).isSome then (false, m)
    else
      (true, ⟨setKey id { ms with handles := ms.handles ++ [h] } m.members,
              (h, id) :: m.handle_to_id⟩)

/-- Modelled from the spec: drop one replica handle from its owning member and
    from the reverse index, failing when the handle is unowned. -/
def remove_handle (m : ActionProfMemberMap) (h : Nat) : Bool × ActionProfMemberMap :=
  match lookupKey h m.handle_to_id with
  | none => (false, m)
  | some id =>
    match lookupKey id m.members with
    | none => (false, m)
    | some ms =>
      (true, ⟨setKey id { ms with handles := ms.handles.erase h } m.members,
              eraseKey h m.handle_to_id⟩)

/-- Modelled from the spec: delete a member together with the reverse-index
    entries of all of its replica handles. -/
def remove (m : ActionProfMemberMap) (id : Nat) : Bool × ActionProfMemberMap :=
  match lookupKey id m.members with
  | none => (false, m)
  | some ms =>
    (true, ⟨eraseKey id m.members, eraseKeys ms.handles m.handle_to_id⟩)

/-- One member-map operation. -/
inductive Op where
  | add (id h a : Nat)
  | add_handle (h id : Nat)
  | remove_handle (h : Nat)
  | remove (id : Nat)
  deriving DecidableEq, Repr

def applyOp (m : ActionProfMemberMap) : Op → ActionProfMemberMap
  | .add id h a => (m.add id h a).2
  | .add_handle h id => (m.add_handle h id).2
  | .remove_handle h => (m.remove_handle h).2
  | .remove id => (m.remove id).2

/-- Forward/reverse index consistency: duplicate-free keys on both sides,
    duplicate-free per-member handle lists, every stored handle indexed back
    to its owner, and every index entry backed by a member that owns the
    handle. -/
def Inv (m : ActionProfMemberMap) : Prop :=
  (keysOf m.members).Nodup ∧ (keysOf m.handle_to_id).Nodup ∧
    (∀ q ∈ m.members, q.2.handles.Nodup ∧
      ∀ h ∈ q.2.handles, lookupKey h m.handle_to_id = some q.1) ∧
    (∀ p ∈ m.handle_to_id, ∃ q ∈ m.members, q.1 = p.2 ∧ p.1 ∈ q.2.handles)

instance (m : ActionProfMemberMap) : Decidable (Inv m) := by
  unfold Inv
  infer_instance

theorem member_map_inv_empty : Inv ActionProfMemberMap.empty := by
  refine ⟨?_, ?_, ?_, ?_⟩ <;> simp [ActionProfMemberMap.empty, keysOf]

/-- An unowned handle (no member's list contains it) has no reverse-index
    entry. -/
theorem Inv.retrieve_id_none {m : ActionProfMemberMap} (hinv : Inv m) {h : Nat}
    (hun : ∀ q ∈ m.members, h ∉ q.2.handles) : m.retrieve_id h = none := by
  cases hcase : m.retrieve_id h with
  | none => rfl
  | some id =>
    exfalso
    have hmem : (h, id) ∈ m.handle_to_id := lookupKey_mem hcase
    obtain ⟨q, hq, _, hqh⟩ := hinv.2.2.2 (h, id) hmem
    exact hun q hq hqh

end ActionProfMemberMap

theorem value_eq_of_mem_lookup {β : Type} {q : Nat × β} {l : List (Nat × β)} {v : β}
    (hnd : (keysOf l).Nodup) (hq : q ∈ l) (hl : lookupKey q.1 l = some v) : q.2 = v := by
  have hself := lookupKey_of_mem hnd (show (q.1, q.2) ∈ l from hq)
  rw [hl] at hself
  exact (Option.some.inj hself).symm

namespace ActionProfMemberMap

theorem member_map_inv_add {m : ActionProfMemberMap} (hinv : Inv m) (id h a : Nat) :
    Inv (m.add id h a).2 := by
  obtain ⟨hmnd, hhnd, hfwd, hbwd⟩ := hinv
  by_cases hguard : (lookupKey id m.members).isSome || (lookupKey h m.handle_to_id).isSome
  · simpa [ActionProfMemberMap.add, hguard] using ⟨hmnd, hhnd, hfwd, hbwd⟩
  · simp only [Bool.or_eq_true, not_or, Option.isSome_iff_exists, not_exists] at hguard
    have hidnone : lookupKey id m.members = none := by
      cases hc : lookupKey id m.members with
      | none => rfl
      | some v => exact absurd hc (hguard.1 v)
    have hhnone : lookupKey h m.handle_to_id = none := by
      cases hc : lookupKey h m.handle_to_id with
      | none => rfl
      | some v => exact absurd hc (hguard.2 v)
    have hres : (m.add id h a).2
        = ⟨(id, ⟨a, [h], []⟩) :: m.members, (h, id) :: m.handle_to_id⟩ := by
      simp [ActionProfMemberMap.add, hidnone, hhnone]
    rw [hres]
    refine ⟨?_, ?_, ?_, ?_⟩
    · simp only [keysOf_cons]
      exact List.nodup_cons.mpr ⟨by simpa using lookupKey_eq_none.mp hidnone, hmnd⟩
    · simp only [keysOf_cons]
      exact List.nodup_cons.mpr ⟨by simpa using lookupKey_eq_none.mp hhnone, hhnd⟩
    · intro q hq
      rcases List.mem_cons.mp hq with rfl | hq
      · refine ⟨by simp, ?_⟩
        intro hh hhh
        simp only [List.mem_singleton] at hhh
        subst hhh
        exact lookupKey_cons_self
      · have hq2 := hfwd q hq
        refine ⟨hq2.1, ?_⟩
        intro hh hhh
        have hne : h ≠ hh := by
          intro heq
          have h2 := hq2.2 hh hhh
          rw [← heq, hhnone] at h2
          exact Option.noConfusion h2
        rw [lookupKey_cons_ne hne]
        exact hq2.2 hh hhh
    · intro p hp
      rcases List.mem_cons.mp hp with rfl | hp
      · exact ⟨(id, ⟨a, [h], []⟩), List.mem_cons_self _ _, rfl, by simp⟩
      · obtain ⟨q, hq, hq1, hq2⟩ := hbwd p hp
        exact ⟨q, List.mem_cons_of_mem _ hq, hq1, hq2⟩

theorem member_map_inv_add_handle {m : ActionProfMemberMap} (hinv : Inv m) (h id : Nat) :
    Inv (m.add_handle h id).2 := by
  obtain ⟨hmnd, hhnd, hfwd, hbwd⟩ := hinv
  cases hcase : lookupKey id m.members with
  | none =>
    simpa [ActionProfMemberMap.add_handle, hcase] using ⟨hmnd, hhnd, hfwd, hbwd⟩
  | some ms =>
    by_cases hguard : (lookupKey h m.handle_to_id).isSome
    · simpa [ActionProfMemberMap.add_handle, hcase, hguard]
        using ⟨hmnd, hhnd, hfwd, hbwd⟩
    · have hhnone : lookupKey h m.handle_to_id = none := by
        cases hc : lookupKey h m.handle_to_id with
        | none => rfl
        | some v => rw [hc] at hguard; simp at hguard
      have hres : (m.add_handle h id).2
          = ⟨setKey id { ms with handles := ms.handles ++ [h] } m.members,
             (h, id) :: m.handle_to_id⟩ := by
        simp [ActionProfMemberMap.add_handle, hcase, hhnone]
      have hmsmem : (id, ms) ∈ m.members := lookupKey_mem hcase
      have hmsfwd := hfwd (id, ms) hmsmem
      have hnotin : h ∉ ms.handles := by
        intro hmem
        have h2 := hmsfwd.2 h hmem
        rw [hhnone] at h2
        exact Option.noConfusion h2
      rw [hres]
      refine ⟨?_, ?_, ?_, ?_⟩
      · rw [keysOf_setKey]
        exact hmnd
      · simp only [keysOf_cons]
        exact List.nodup_cons.mpr ⟨by simpa using lookupKey_eq_none.mp hhnone, hhnd⟩
      · intro q hq
        rcases mem_setKey_cases hmnd hq with rfl | ⟨hq, hqne⟩
        · constructor
          · exact List.Nodup.append hmsfwd.1 (by simp)
              (List.disjoint_singleton.mpr hnotin)
          · intro hh hhh
            rcases List.mem_append.mp hhh with hh1 | hh2
            · have hne : h ≠ hh := by
                intro heq
                rw [← heq] at hh1
                exact hnotin hh1
              rw [lookupKey_cons_ne hne]
              exact hmsfwd.2 hh hh1
            · simp only [List.mem_singleton] at hh2
              subst hh2
              exact lookupKey_cons_self
        · have hq2 := hfwd q hq
          refine ⟨hq2.1, ?_⟩
          intro hh hhh
          have hne : h ≠ hh := by
            intro heq
            have h2 := hq2.2 hh hhh
            rw [← heq, hhnone] at h2
            exact Option.noConfusion h2
          rw [lookupKey_cons_ne hne]
          exact hq2.2 hh hhh
      · intro p hp
        rcases List.mem_cons.mp hp with rfl | hp
        · exact ⟨(id, { ms with handles := ms.handles ++ [h] }),
            mem_setKey_self hmsmem, rfl, by simp⟩
        · obtain ⟨q, hq, hq1, hq2⟩ := hbwd p hp
          by_cases hqid : q.1 = id
          · have hqms : q.2 = ms :=
              value_eq_of_mem_lookup hmnd hq (by rw [hqid]; exact hcase)
            refine ⟨(id, { ms with handles := ms.handles ++ [h] }),
              mem_setKey_self hmsmem, ?_, ?_⟩
            · rw [← hqid, hq1]
            · rw [hqms] at hq2
              exact List.mem_append_left _ hq2
          · exact ⟨q, mem_setKey_of_ne hq hqid, hq1, hq2⟩

end ActionProfMemberMap

namespace ActionProfMemberMap

theorem member_map_inv_remove_handle {m : ActionProfMemberMap} (hinv : Inv m) (h : Nat) :
    Inv (m.remove_handle h).2 := by
  obtain ⟨hmnd, hhnd, hfwd, hbwd⟩ := hinv
  cases hcase : lookupKey h m.handle_to_id with
  | none =>
    simpa [ActionProfMemberMap.remove_handle, hcase] using ⟨hmnd, hhnd, hfwd, hbwd⟩
  | some id =>
    cases hcase2 : lookupKey id m.members with
    | none =>
      simpa [ActionProfMemberMap.remove_handle, hcase, hcase2]
        using ⟨hmnd, hhnd, hfwd, hbwd⟩
    | some ms =>
      have hres : (m.remove_handle h).2
          = ⟨setKey id { ms with handles := ms.handles.erase h } m.members,
             eraseKey h m.handle_to_id⟩ := by
        simp [ActionProfMemberMap.remove_handle, hcase, hcase2]
      have hmsmem : (id, ms) ∈ m.members := lookupKey_mem hcase2
      have hmsfwd := hfwd (id, ms) hmsmem
      rw [hres]
      refine ⟨?_, nodup_keysOf_eraseKey hhnd, ?_, ?_⟩
      · rw [keysOf_setKey]
        exact hmnd
      · intro q hq
        rcases mem_setKey_cases hmnd hq with rfl | ⟨hq, hqne⟩
        · refine ⟨hmsfwd.1.erase h, ?_⟩
          intro hh hhh
          have hmem2 := (hmsfwd.1.mem_erase_iff).mp hhh
          rw [lookupKey_eraseKey_ne _ hmem2.1]
          exact hmsfwd.2 hh hmem2.2
        · refine ⟨(hfwd q hq).1, ?_⟩
          intro hh hhh
          have honk := (hfwd q hq).2 hh hhh
          have hne : hh ≠ h := by
            intro heq
            rw [heq, hcase] at honk
            exact hqne (Option.some.inj honk).symm
          rw [lookupKey_eraseKey_ne _ hne]
          exact honk
      · intro p hp
        have hpmem : p ∈ m.handle_to_id := mem_of_mem_eraseKey hp
        have hpne : p.1 ≠ h := ne_key_of_mem_eraseKey hhnd hp
        obtain ⟨q, hq, hq1, hq2⟩ := hbwd p hpmem
        by_cases hqid : q.1 = id
        · have hqms : q.2 = ms :=
            value_eq_of_mem_lookup hmnd hq (by rw [hqid]; exact hcase2)
          refine ⟨(id, { ms with handles := ms.handles.erase h }),
            mem_setKey_self hmsmem, ?_, ?_⟩
          · rw [← hqid, hq1]
          · refine (hmsfwd.1.mem_erase_iff).mpr ⟨hpne, ?_⟩
            rw [← hqms]
            exact hq2
        · exact ⟨q, mem_setKey_of_ne hq hqid, hq1, hq2⟩

theorem member_map_inv_remove {m : ActionProfMemberMap} (hinv : Inv m) (id : Nat) :
    Inv (m.remove id).2 := by
  obtain ⟨hmnd, hhnd, hfwd, hbwd⟩ := hinv
  cases hcase : lookupKey id m.members with
  | none =>
    simpa [ActionProfMemberMap.remove, hcase] using ⟨hmnd, hhnd, hfwd, hbwd⟩
  | some ms =>
    have hres : (m.remove id).2
        = ⟨eraseKey id m.members, eraseKeys ms.handles m.handle_to_id⟩ := by
      simp [ActionProfMemberMap.remove, hcase]
    have hmsmem : (id, ms) ∈ m.members := lookupKey_mem hcase
    rw [hres]
    refine ⟨nodup_keysOf_eraseKey hmnd, nodup_keysOf_eraseKeys hhnd, ?_, ?_⟩
    · intro q hq
      have hqm : q ∈ m.members := mem_of_mem_eraseKey hq
      have hqne : q.1 ≠ id := ne_key_of_mem_eraseKey hmnd hq
      refine ⟨(hfwd q hqm).1, ?_⟩
      intro hh hhh
      have honk := (hfwd q hqm).2 hh hhh
      have hnotms : hh ∉ ms.handles := by
        intro hmem
        have h2 := (hfwd (id, ms) hmsmem).2 hh hmem
        rw [honk] at h2
        exact hqne (Option.some.inj h2)
      rw [lookupKey_eraseKeys ms.handles hh hhnd, if_neg hnotms]
      exact honk
    · intro p hp
      have hpmem : p ∈ m.handle_to_id := (eraseKeys_sublist _ _).mem hp
      have hlook : lookupKey p.1 (eraseKeys ms.handles m.handle_to_id) = some p.2 :=
        lookupKey_of_mem (nodup_keysOf_eraseKeys hhnd) (show (p.1, p.2) ∈ _ from hp)
      have hpnot : p.1 ∉ ms.handles := by
        intro hmem
        rw [lookupKey_eraseKeys ms.handles p.1 hhnd, if_pos hmem] at hlook
        exact Option.noConfusion hlook
      obtain ⟨q, hq, hq1, hq2⟩ := hbwd p hpmem
      have hqne : q.1 ≠ id := by
        intro heq
        have hqms : q.2 = ms :=
          value_eq_of_mem_lookup hmnd hq (by rw [heq]; exact hcase)
        rw [hqms] at hq2
        exact hpnot hq2
      exact ⟨q, mem_eraseKey_of_ne hq hqne, hq1, hq2⟩

theorem member_map_inv_applyOp {m : ActionProfMemberMap} (hinv : Inv m) (op : Op) :
    Inv (m.applyOp op) := by
  cases op with
  | add id h a => exact member_map_inv_add hinv id h a
  | add_handle h id => exact member_map_inv_add_handle hinv h id
  | remove_handle h => exact member_map_inv_remove_handle hinv h
  | remove id => exact member_map_inv_remove hinv id

end ActionProfMemberMap

/-- C10: The weighted-member store keeps its forward and reverse indexes
    consistent: in any consistent store, for every member id and every handle
    in that member's replica-handle list `retrieve_id` returns that id, for
    every handle owned by no member `retrieve_id` is absent, and every
    `add`, `add_handle`, `remove_handle` and `remove` operation preserves the
    consistency invariant. -/
theorem member_map_index_consistency (m : ActionProfMemberMap)
    (op : ActionProfMemberMap.Op) (hinv : ActionProfMemberMap.Inv m) :
    ActionProfMemberMap.Inv (m.applyOp op) ∧
    (∀ id ms, lookupKey id m.members = some ms →
      ∀ h ∈ ms.handles, m.retrieve_id h = some id) ∧
    (∀ h, (∀ q ∈ m.members, h ∉ q.2.handles) → m.retrieve_id h = none) := by
  refine ⟨ActionProfMemberMap.member_map_inv_applyOp hinv op, ?_,
    fun h hun => hinv.retrieve_id_none hun⟩
  intro id ms hlook h hh
  have hmem : (id, ms) ∈ m.members := lookupKey_mem hlook
  exact (hinv.2.2.1 (id, ms) hmem).2 h hh

/-- A concrete consistent store: member 1 owns handles 10 and 11. -/
def memberMapW : ActionProfMemberMap :=
  ⟨[(1, ⟨5, [10, 11], []⟩)], [(10, 1), (11, 1)]⟩

/-- The consistency theorem instantiated on the concrete store and an
    `add_handle` operation. -/
theorem member_map_index_consistency_witness :
    ActionProfMemberMap.Inv memberMapW ∧
    (ActionProfMemberMap.Inv (memberMapW.applyOp (.add_handle 12 1)) ∧
      (∀ id ms, lookupKey id memberMapW.members = some ms →
        ∀ h ∈ ms.handles, memberMapW.retrieve_id h = some id) ∧
      (∀ h, (∀ q ∈ memberMapW.members, h ∉ q.2.handles) →
        memberMapW.retrieve_id h = none)) :=
  ⟨by decide,
   member_map_index_consistency memberMapW (.add_handle 12 1) (by decide)⟩

/-! ### ActionProfMgr style selection

The profile manager commits to the manual or oneshot style on the first
successful access and rejects the other style with `FailedPrecondition`
afterwards (modelled from the spec and the header's `SelectorUsage` /
`check_selector_usage`). -/

inductive SelectorUsage where
  | UNSPECIFIED
  | ONESHOT
  | MANUAL
  deriving DecidableEq, Repr

/-- Modelled from the spec: `manual()` commits an unspecified instance to the
    manual style and succeeds; it keeps succeeding on a manual instance and
    fails with `FailedPrecondition` (leaving the usage unchanged) on a
    oneshot instance. -/
def manual_call : SelectorUsage → StatusCode × SelectorUsage
  | .UNSPECIFIED => (.Ok, .MANUAL)
  | .MANUAL => (.Ok, .MANUAL)
  | .ONESHOT => (.FailedPrecondition, .ONESHOT)

/-- Modelled from the spec: the oneshot counterpart of `manual_call`. -/
def oneshot_call : SelectorUsage → StatusCode × SelectorUsage
  | .UNSPECIFIED => (.Ok, .ONESHOT)
  | .ONESHOT => (.Ok, .ONESHOT)
  | .MANUAL => (.FailedPrecondition, .MANUAL)

inductive MgrCall where
  | manual
  | oneshot
  deriving DecidableEq, Repr

def mgr_step (u : SelectorUsage) : MgrCall → SelectorUsage
  | .manual => (manual_call u).2
  | .oneshot => (oneshot_call u).2

def mgr_run (calls : List MgrCall) (u : SelectorUsage) : SelectorUsage :=
  calls.foldl mgr_step u

theorem mgr_run_manual_fixed (calls : List MgrCall) :
    mgr_run calls SelectorUsage.MANUAL = SelectorUsage.MANUAL := by
  induction calls with
  | nil => rfl
  | cons c rest ih =>
    show mgr_run rest (mgr_step .MANUAL c) = _
    cases c <;> exact ih

theorem mgr_run_oneshot_fixed (calls : List MgrCall) :
    mgr_run calls SelectorUsage.ONESHOT = SelectorUsage.ONESHOT := by
  induction calls with
  | nil => rfl
  | cons c rest ih =>
    show mgr_run rest (mgr_step .ONESHOT c) = _
    cases c <;> exact ih

/-- C7: Once `manual()` has succeeded on an instance, every subsequent
    `oneshot()` call — after any further sequence of calls — fails with
    `FailedPrecondition`, and vice versa; commitment happens on the first
    successful access, not at construction: on a fresh (UNSPECIFIED) instance
    either style call succeeds. -/
theorem style_exclusivity (u : SelectorUsage) (calls : List MgrCall) :
    ((manual_call u).1 = .Ok →
      (oneshot_call (mgr_run calls (manual_call u).2)).1 = .FailedPrecondition) ∧
    ((oneshot_call u).1 = .Ok →
      (manual_call (mgr_run calls (oneshot_call u).2)).1 = .FailedPrecondition) ∧
    (manual_call .UNSPECIFIED).1 = .Ok ∧ (oneshot_call .UNSPECIFIED).1 = .Ok := by
  refine ⟨?_, ?_, rfl, rfl⟩
  · intro hok
    have hstate : (manual_call u).2 = .MANUAL := by
      cases u <;> first | rfl | exact absurd hok (by simp [manual_call])
    rw [hstate, mgr_run_manual_fixed]
    rfl
  · intro hok
    have hstate : (oneshot_call u).2 = .ONESHOT := by
      cases u <;> first | rfl | exact absurd hok (by simp [oneshot_call])
    rw [hstate, mgr_run_oneshot_fixed]
    rfl

/-- The exclusivity theorem instantiated on a fresh instance: a successful
    `manual()` makes a later `oneshot()` (after one more intervening call)
    fail, and symmetrically. -/
theorem style_exclusivity_witness :
    (manual_call .UNSPECIFIED).1 = .Ok ∧
    (oneshot_call
      (mgr_run [MgrCall.manual] (manual_call .UNSPECIFIED).2)).1 = .FailedPrecondition ∧
    (oneshot_call .UNSPECIFIED).1 = .Ok ∧
    (manual_call
      (mgr_run [MgrCall.manual] (oneshot_call .UNSPECIFIED).2)).1 = .FailedPrecondition :=
  ⟨by decide,
   (style_exclusivity .UNSPECIFIED [MgrCall.manual]).1 (by decide),
   by decide,
   (style_exclusivity .UNSPECIFIED [MgrCall.manual]).2.1 (by decide)⟩

/-! ### Post-commit purge reporting -/

inductive ReportSeverity where
  | Error
  | Critical
  deriving DecidableEq, Repr

/-- A report surfaced outside an operation's returned status; the
    best-effort-cleanup-failed kind is reserved for post-commit
    purge/rollback failures. -/
structure Report where
  severity : ReportSeverity
  best_effort_cleanup_failed : Bool
  deriving DecidableEq, Repr

/-- Modelled from the spec: the wrapper around
    `purge_unused_weighted_members` turns a purge failure into a
    critical-severity best-effort-cleanup-failed report and reports success
    onward, because the owning group was already updated on the device. -/
def purge_unused_weighted_members_wrapper (purge_status : StatusCode) :
    StatusCode × List Report :=
  if purge_status = .Ok then (.Ok, [])
  else (.Ok, [⟨.Critical, true⟩])

/-- Modelled from the spec: a group operation whose primary effect has
    committed runs the purge afterwards through the wrapper; when the primary
    step fails no purge runs. -/
def operation_with_purge (primary purge_status : StatusCode) :
    StatusCode × List Report :=
  if primary = .Ok then
    ((purge_unused_weighted_members_wrapper purge_status).1,
     (purge_unused_weighted_members_wrapper purge_status).2)
  else (primary, [])

/-- C8: A failure during post-commit purge never changes the status returned
    for the caller's primary operation; the purge failure is surfaced only as
    a distinguished critical-severity best-effort-cleanup-failed report, and
    a successful purge produces no report. -/
theorem purge_failure_keeps_primary_status (primary purge_status : StatusCode) :
    (operation_with_purge primary purge_status).1 = primary ∧
    (primary = .Ok → purge_status ≠ .Ok →
      (operation_with_purge primary purge_status).2
        = [⟨ReportSeverity.Critical, true⟩]) ∧
    (purge_status = .Ok → (operation_with_purge primary purge_status).2 = []) := by
  refine ⟨?_, ?_, ?_⟩
  · by_cases hp : primary = .Ok
    · subst hp
      by_cases hq : purge_status = .Ok <;>
        simp [operation_with_purge, purge_unused_weighted_members_wrapper, hq]
    · simp [operation_with_purge, hp]
  · intro hp hq
    subst hp
    simp [operation_with_purge, purge_unused_weighted_members_wrapper, hq]
  · intro hq
    subst hq
    by_cases hp : primary = .Ok <;>
      simp [operation_with_purge, purge_unused_weighted_members_wrapper, hp]

/-- The purge-reporting theorem at a concrete failed purge under a committed
    primary operation, and at a successful purge. -/
theorem purge_failure_keeps_primary_status_witness :
    (operation_with_purge .Ok .Internal).1 = .Ok ∧
    (operation_with_purge .Ok .Internal).2 = [⟨ReportSeverity.Critical, true⟩] ∧
    (operation_with_purge .Ok .Ok).2 = [] :=
  ⟨(purge_failure_keeps_primary_status .Ok .Internal).1,
   (purge_failure_keeps_primary_status .Ok .Internal).2.1 (by decide) (by decide),
   (purge_failure_keeps_primary_status .Ok .Ok).2.2 (by decide)⟩

/-! ### Scoped rollback of failed multi-replica creation -/

/-- Execute the scoped cleanup tasks: delete (erase) every handle created so
    far in this call from the member's handle list, most recent first. -/
def rollback_handles (created handles : List Nat) : List Nat :=
  created.foldl (fun hs h => hs.erase h) handles

/-- Modelled from the spec: create the `n` missing replicas one device call
    at a time (`outcomes` lists the success of each successive device call,
    an exhausted list meaning the device fails); each success appends a fresh
    handle and registers a cleanup task; the first failure aborts with
    `Internal` after running every cleanup task registered in this call. -/
def create_missing_weighted_members_go :
    List Bool → Nat → List Nat → Nat → List Nat → StatusCode × List Nat × Nat
  | _, 0, handles, next, _ => (.Ok, handles, next)
  | [], Nat.succ _, handles, next, created =>
      (.Internal, rollback_handles created handles, next)
  | true :: rest, Nat.succ n, handles, next, created =>
      create_missing_weighted_members_go rest n (handles ++ [next]) (next + 1)
        (next :: created)
  | false :: _, Nat.succ _, handles, next, created =>
      (.Internal, rollback_handles created handles, next)

/-- Create `n` missing weighted-member replicas for a member whose current
    handle list is `handles`, the device allocating fresh handles from
    `next`.  Returns the status, the resulting handle list and the device's
    next handle. -/
def create_missing_weighted_members (outcomes : List Bool) (n : Nat)
    (handles : List Nat) (next : Nat) : StatusCode × List Nat × Nat :=
  create_missing_weighted_members_go outcomes n handles next []

theorem rollback_handles_restores (created : List Nat) :
    ∀ (base : List Nat), created.Nodup → (∀ h ∈ created, h ∉ base) →
      rollback_handles created (base ++ created.reverse) = base := by
  induction created with
  | nil =>
    intro base _ _
    simp [rollback_handles]
  | cons h t ih =>
    intro base hnd hdisj
    have hnd2 := List.nodup_cons.mp hnd
    show rollback_handles t ((base ++ (h :: t).reverse).erase h) = base
    have hnotbase : h ∉ base := hdisj h (List.mem_cons_self _ _)
    have hnotrev : h ∉ t.reverse := by
      intro hmem
      exact hnd2.1 (List.mem_reverse.mp hmem)
    have herase : (base ++ (h :: t).reverse).erase h = base ++ t.reverse := by
      rw [List.reverse_cons, List.erase_append_right _ hnotbase,
        List.erase_append_right _ hnotrev]
      simp
    rw [herase]
    exact ih base hnd2.2 (fun x hx => hdisj x (List.mem_cons_of_mem _ hx))

theorem create_missing_go_rollback (outcomes : List Bool) :
    ∀ (k n : Nat) (base : List Nat) (next : Nat) (created : List Nat),
      k < n →
      outcomes.getD k true = false →
      (∀ j, j < k → outcomes.getD j false = true) →
      created.Nodup →
      (∀ h ∈ created, h ∉ base) →
      (∀ h, h ∈ base ∨ h ∈ created → h < next) →
      (create_missing_weighted_members_go outcomes n (base ++ created.reverse)
          next created).1 = .Internal ∧
      (create_missing_weighted_members_go outcomes n (base ++ created.reverse)
          next created).2.1 = base := by
  induction outcomes with
  | nil =>
    intro k n base next created hk hfail hpre hnd hdisj hbound
    simp at hfail
  | cons b rest ih =>
    intro k n base next created hk hfail hpre hnd hdisj hbound
    cases n with
    | zero => omega
    | succ n =>
      cases k with
      | zero =>
        have hb : b = false := by simpa using hfail
        subst hb
        exact ⟨rfl, rollback_handles_restores created base hnd hdisj⟩
      | succ k =>
        have hb : b = true := by
          have h0 := hpre 0 (Nat.succ_pos k)
          simpa using h0
        subst hb
        have hstep : create_missing_weighted_members_go (true :: rest) (n + 1)
            (base ++ created.reverse) next created
            = create_missing_weighted_members_go rest n
              ((base ++ created.reverse) ++ [next]) (next + 1) (next :: created) := rfl
        have hsh : (base ++ created.reverse) ++ [next]
            = base ++ (next :: created).reverse := by
          rw [List.reverse_cons, List.append_assoc]
        rw [hstep, hsh]
        refine ih k n base (next + 1) (next :: created) (by omega) ?_ ?_ ?_ ?_ ?_
        · simpa using hfail
        · intro j hj
          have hj2 := hpre (j + 1) (by omega)
          simpa using hj2
        · refine List.nodup_cons.mpr ⟨?_, hnd⟩
          intro hmem
          have hlt : next < next := hbound next (Or.inr hmem)
          omega
        · intro h hm
          rcases List.mem_cons.mp hm with rfl | hm
          · intro hmb
            have hlt : h < h := hbound h (Or.inl hmb)
            omega
          · exact hdisj h hm
        · intro h hm
          rcases hm with hm | hm
          · have hlt : h < next := hbound h (Or.inl hm)
            omega
          · rcases List.mem_cons.mp hm with rfl | hm
            · omega
            · have hlt : h < next := hbound h (Or.inr hm)
              omega

/-- C6: If the k-th (0-based) of the n replica creations required by one
    operation fails, the operation aborts with `Internal` and every replica
    created earlier within the same operation is rolled back: the member's
    handle list afterwards is exactly the list it started with — zero new
    replicas attributable to the failed operation.  The rollback runs on
    every exit path, including success of the first k calls followed by
    failure of a later one. -/
theorem replica_creation_rollback (outcomes : List Bool) (n k : Nat)
    (handles : List Nat) (next : Nat)
    (hwf : ∀ h ∈ handles, h < next)
    (hk : k < n)
    (hfail : outcomes.getD k true = false)
    (hpre : ∀ j, j < k → outcomes.getD j false = true) :
    (create_missing_weighted_members outcomes n handles next).1 = .Internal ∧
    (create_missing_weighted_members outcomes n handles next).2.1 = handles := by
  have hbound : ∀ h, h ∈ handles ∨ h ∈ ([] : List Nat) → h < next := by
    intro h hm
    rcases hm with hm | hm
    · exact hwf h hm
    · simp at hm
  have hmain := create_missing_go_rollback outcomes k n handles next [] hk hfail hpre
    (by simp) (by simp) hbound
  simpa [create_missing_weighted_members] using hmain

/-- The rollback theorem at a concrete run: two replicas already present,
    the operation needs three more, the third device call fails after two
    successes; the member's handle list is unchanged afterwards. -/
theorem replica_creation_rollback_witness :
    (∀ h ∈ [10, 11], h < 20) ∧ (2 : Nat) < 3 ∧
    ([true, true, false].getD 2 true = false) ∧
    (∀ j, j < 2 → [true, true, false].getD j false = true) ∧
    (create_missing_weighted_members [true, true, false] 3 [10, 11] 20).1 = .Internal ∧
    (create_missing_weighted_members [true, true, false] 3 [10, 11] 20).2.1 = [10, 11] :=
  ⟨by decide, by decide, by decide, by decide,
   (replica_creation_rollback [true, true, false] 3 2 [10, 11] 20 (by decide)
     (by decide) (by decide) (by decide)).1,
   (replica_creation_rollback [true, true, false] 3 2 [10, 11] 20 (by decide)
     (by decide) (by decide) (by decide)).2⟩

/-! ### Oneshot groups

Anonymous groups built atomically from an inline action list.  For each entry
`weight` member copies are created through the device (consecutive fresh
handles); the stored `OneShotMember` list gives the first copy the
user-provided weight and every subsequent copy weight 0, so that read-back
reconstructs the original request exactly. -/

/-- One entry of a oneshot action set: action (opaque payload id), weight
    (≥ 1), watch. -/
structure ActionSetEntry where
  action : Nat
  weight : Nat
  watch : WatchPort
  deriving DecidableEq, Repr

/-- One replica-aware entry of a stored anonymous group. -/
structure OneShotMember where
  member_h : Nat
  weight : Nat
  watch : WatchPort
  deriving DecidableEq, Repr

/-- The weight-0 copies stored for one logical entry (all replicas after the
    first), handles consecutive from `next`. -/
def entry_zero_members (w : WatchPort) : Nat → Nat → List OneShotMember
  | _, 0 => []
  | next, Nat.succ k => ⟨next, 0, w⟩ :: entry_zero_members w (next + 1) k

/-- Modelled from the spec: build the stored member list for an ordered
    action set, allocating consecutive device handles from `next`; per entry
    the first copy carries the user-provided weight, the rest weight 0. -/
def build_oneshot_members : Nat → List ActionSetEntry → List OneShotMember
  | _, [] => []
  | next, e :: rest =>
      (⟨next, e.weight, e.watch⟩ ::
        entry_zero_members e.watch (next + 1) (e.weight - 1)) ++
        build_oneshot_members (next + e.weight) rest

/-- The member-create device calls made for one entry: handle ↦ action. -/
def entry_calls (a : Nat) : Nat → Nat → List (Nat × Nat)
  | _, 0 => []
  | next, Nat.succ k => (next, a) :: entry_calls a (next + 1) k

/-- All member-create device calls made while building a oneshot group. -/
def oneshot_member_calls : Nat → List ActionSetEntry → List (Nat × Nat)
  | _, [] => []
  | next, e :: rest =>
      entry_calls e.action next e.weight ++ oneshot_member_calls (next + e.weight) rest

/-- Read-back of a stored group: one entry per replica, the replica's action
    resolved through its device handle, with the stored weight and watch. -/
def oneshot_readback (ms : List OneShotMember) (table : List (Nat × Nat)) :
    List (Nat × Nat × WatchPort) :=
  ms.map (fun m => ((lookupKey m.member_h table).getD 0, m.weight, m.watch))

/-- Recover the original request from a read-back: the entries carrying a
    non-zero weight, in order. -/
def oneshot_recover (rb : List (Nat × Nat × WatchPort)) : List ActionSetEntry :=
  (rb.filter (fun e => e.2.1 != 0)).map (fun e => ⟨e.1, e.2.1, e.2.2⟩)

/-- Store of anonymous groups: group handle ↦ stored member list, plus the
    device's next fresh handle. -/
structure ActionProfAccessOneshot where
  group_members : List (Nat × List OneShotMember)
  next_handle : Nat
  deriving DecidableEq, Repr

/-- Modelled from the spec: create an anonymous group from an inline action
    set, returning the new group handle and storing the replica-aware member
    list. -/
def ActionProfAccessOneshot.group_create (s : ActionProfAccessOneshot)
    (action_set : List ActionSetEntry) : Nat × ActionProfAccessOneshot :=
  (s.next_handle,
   ⟨(s.next_handle, build_oneshot_members (s.next_handle + 1) action_set)
       :: s.group_members,
    s.next_handle + 1 + (action_set.map (fun e => e.weight)).sum⟩)

def ActionProfAccessOneshot.group_get_members (s : ActionProfAccessOneshot)
    (h : Nat) : Option (List OneShotMember) :=
  lookupKey h s.group_members

theorem lookupKey_append_left {β : Type} {k : Nat} {v : β} {l1 l2 : List (Nat × β)}
    (h : lookupKey k l1 = some v) : lookupKey k (l1 ++ l2) = some v := by
  induction l1 with
  | nil => simp [lookupKey] at h
  | cons p t ih =>
    obtain ⟨a, b⟩ := p
    by_cases hak : a = k
    · subst hak
      simp [lookupKey] at h ⊢
      exact h
    · simp [lookupKey, hak] at h ⊢
      exact ih h

theorem lookupKey_append_right {β : Type} {k : Nat} {l1 l2 : List (Nat × β)}
    (h : lookupKey k l1 = none) : lookupKey k (l1 ++ l2) = lookupKey k l2 := by
  induction l1 with
  | nil => rfl
  | cons p t ih =>
    obtain ⟨a, b⟩ := p
    by_cases hak : a = k
    · subst hak
      simp [lookupKey] at h
    · simp [lookupKey, hak] at h ⊢
      exact ih h

theorem lookupKey_entry_calls (a : Nat) :
    ∀ (w next h : Nat),
      lookupKey h (entry_calls a next w)
        = if next ≤ h ∧ h < next + w then some a else none := by
  intro w
  induction w with
  | zero =>
    intro next h
    rw [if_neg (by omega)]
    rfl
  | succ k ih =>
    intro next h
    by_cases hnh : next = h
    · subst hnh
      show lookupKey next ((next, a) :: entry_calls a (next + 1) k) = _
      rw [lookupKey_cons_self, if_pos (by omega)]
    · show lookupKey h ((next, a) :: entry_calls a (next + 1) k) = _
      rw [lookupKey_cons_ne hnh, ih (next + 1) h]
      by_cases hc : next + 1 ≤ h ∧ h < next + 1 + k
      · rw [if_pos hc, if_pos (by omega)]
      · rw [if_neg hc, if_neg (by omega)]

theorem entry_zero_members_handle_bound (w : WatchPort) :
    ∀ (count next : Nat), ∀ m ∈ entry_zero_members w next count,
      next ≤ m.member_h ∧ m.member_h < next + count := by
  intro count
  induction count with
  | zero =>
    intro next m hm
    simp [entry_zero_members] at hm
  | succ k ih =>
    intro next m hm
    rcases List.mem_cons.mp hm with rfl | hm
    · refine ⟨Nat.le.refl, ?_⟩
      show next < next + (k + 1)
      omega
    · have hb := ih (next + 1) m hm
      omega

theorem entry_zero_members_length (w : WatchPort) :
    ∀ (count next : Nat), (entry_zero_members w next count).length = count := by
  intro count
  induction count with
  | zero => intro next; rfl
  | succ k ih =>
    intro next
    show (entry_zero_members w (next + 1) k).length + 1 = k + 1
    rw [ih]

theorem build_handle_bound :
    ∀ (entries : List ActionSetEntry) (next : Nat),
      ∀ m ∈ build_oneshot_members next entries, next ≤ m.member_h := by
  intro entries
  induction entries with
  | nil =>
    intro next m hm
    simp [build_oneshot_members] at hm
  | cons e rest ih =>
    intro next m hm
    simp only [build_oneshot_members, List.cons_append] at hm
    rcases List.mem_cons.mp hm with rfl | hm
    · exact Nat.le.refl
    · rcases List.mem_append.mp hm with hm | hm
      · have hb := entry_zero_members_handle_bound e.watch (e.weight - 1) (next + 1) m hm
        omega
      · have hb := ih (next + e.weight) m hm
        omega

theorem oneshot_readback_cons (m : OneShotMember) (ms : List OneShotMember)
    (t : List (Nat × Nat)) :
    oneshot_readback (m :: ms) t
      = ((lookupKey m.member_h t).getD 0, m.weight, m.watch) :: oneshot_readback ms t :=
  rfl

theorem oneshot_readback_append (ms1 ms2 : List OneShotMember) (t : List (Nat × Nat)) :
    oneshot_readback (ms1 ++ ms2) t
      = oneshot_readback ms1 t ++ oneshot_readback ms2 t :=
  List.map_append _ _ _

theorem oneshot_readback_congr {ms : List OneShotMember} {t1 t2 : List (Nat × Nat)}
    (h : ∀ m ∈ ms, lookupKey m.member_h t1 = lookupKey m.member_h t2) :
    oneshot_readback ms t1 = oneshot_readback ms t2 :=
  List.map_congr_left (fun m hm => by rw [h m hm])

theorem oneshot_readback_zero_members (a : Nat) (w : WatchPort) :
    ∀ (count next : Nat) (table : List (Nat × Nat)),
      (∀ h, next ≤ h → h < next + count → lookupKey h table = some a) →
      oneshot_readback (entry_zero_members w next count) table
        = List.replicate count (a, 0, w) := by
  intro count
  induction count with
  | zero => intro next table _; rfl
  | succ k ih =>
    intro next table hlook
    have htail := ih (next + 1) table (fun h h1 h2 => hlook h (by omega) (by omega))
    show ((lookupKey next table).getD 0, 0, w) ::
        oneshot_readback (entry_zero_members w (next + 1) k) table
      = List.replicate (k + 1) (a, 0, w)
    rw [hlook next Nat.le.refl (by omega), htail]
    rfl

theorem build_oneshot_members_length :
    ∀ (entries : List ActionSetEntry) (next : Nat),
      (∀ e ∈ entries, 1 ≤ e.weight) →
      (build_oneshot_members next entries).length
        = (entries.map (fun e => e.weight)).sum := by
  intro entries
  induction entries with
  | nil => intro next _; rfl
  | cons e rest ih =>
    intro next hpos
    have hw : 1 ≤ e.weight := hpos e (List.mem_cons_self _ _)
    have htail := ih (next + e.weight)
      (fun x hx => hpos x (List.mem_cons_of_mem _ hx))
    simp only [build_oneshot_members, List.cons_append, List.length_cons,
      List.length_append, List.map_cons, List.sum_cons]
    rw [entry_zero_members_length, htail]
    omega

theorem oneshot_readback_build :
    ∀ (entries : List ActionSetEntry) (next : Nat),
      (∀ e ∈ entries, 1 ≤ e.weight) →
      oneshot_readback (build_oneshot_members next entries)
          (oneshot_member_calls next entries)
        = entries.flatMap (fun e =>
            (e.action, e.weight, e.watch) ::
              List.replicate (e.weight - 1) (e.action, 0, e.watch)) := by
  intro entries
  induction entries with
  | nil => intro next _; rfl
  | cons e rest ih =>
    intro next hpos
    have hw : 1 ≤ e.weight := hpos e (List.mem_cons_self _ _)
    have hheadlook : lookupKey next (entry_calls e.action next e.weight ++
        oneshot_member_calls (next + e.weight) rest) = some e.action := by
      apply lookupKey_append_left
      rw [lookupKey_entry_calls, if_pos (by omega)]
    have hzeros : oneshot_readback (entry_zero_members e.watch (next + 1) (e.weight - 1))
        (entry_calls e.action next e.weight ++
          oneshot_member_calls (next + e.weight) rest)
        = List.replicate (e.weight - 1) (e.action, 0, e.watch) := by
      apply oneshot_readback_zero_members
      intro h h1 h2
      apply lookupKey_append_left
      rw [lookupKey_entry_calls, if_pos (by omega)]
    have hrest : oneshot_readback (build_oneshot_members (next + e.weight) rest)
        (entry_calls e.action next e.weight ++
          oneshot_member_calls (next + e.weight) rest)
        = oneshot_readback (build_oneshot_members (next + e.weight) rest)
          (oneshot_member_calls (next + e.weight) rest) := by
      apply oneshot_readback_congr
      intro m hm
      have hb := build_handle_bound rest (next + e.weight) m hm
      apply lookupKey_append_right
      rw [lookupKey_entry_calls, if_neg (by omega)]
    have htail := ih (next + e.weight)
      (fun x hx => hpos x (List.mem_cons_of_mem _ hx))
    simp only [build_oneshot_members, oneshot_member_calls, List.cons_append,
      List.flatMap_cons]
    rw [oneshot_readback_cons, oneshot_readback_append, hheadlook, hzeros,
      hrest, htail]
    rfl

theorem oneshot_recover_flatMap :
    ∀ (entries : List ActionSetEntry), (∀ e ∈ entries, 1 ≤ e.weight) →
      oneshot_recover (entries.flatMap (fun e =>
        (e.action, e.weight, e.watch) ::
          List.replicate (e.weight - 1) (e.action, 0, e.watch))) = entries := by
  intro entries
  induction entries with
  | nil => intro _; rfl
  | cons e rest ih =>
    intro hpos
    have hw : 1 ≤ e.weight := hpos e (List.mem_cons_self _ _)
    have htail := ih (fun x hx => hpos x (List.mem_cons_of_mem _ hx))
    have hne : ((e.action, e.weight, e.watch).2.1 != 0) = true := by
      simp
      omega
    have hrep : List.filter (fun x => x.2.1 != 0)
        (List.replicate (e.weight - 1) (e.action, 0, e.watch)) = [] := by
      rw [List.filter_eq_nil_iff]
      intro x hx
      rw [List.eq_of_mem_replicate hx]
      simp
    simp only [List.flatMap_cons, oneshot_recover, List.filter_append,
      List.filter_cons, hne, if_true, hrep, List.nil_append, List.map_cons,
      List.singleton_append]
    simp only [oneshot_recover] at htail
    rw [htail]

/-- C5: Creating a oneshot group from an ordered action list with per-entry
    weights and reading it back yields one entry per replica where only the
    first replica of each logical entry carries the user-provided weight and
    every subsequent replica carries weight 0; the total number of entries
    equals the sum of the requested weights, and the original request is
    reconstructed exactly by keeping the non-zero-weight entries. -/
theorem oneshot_group_readback (s : ActionProfAccessOneshot)
    (entries : List ActionSetEntry) (hpos : ∀ e ∈ entries, 1 ≤ e.weight) :
    ((s.group_create entries).2.group_get_members (s.group_create entries).1
      = some (build_oneshot_members (s.next_handle + 1) entries)) ∧
    (build_oneshot_members (s.next_handle + 1) entries).length
      = (entries.map (fun e => e.weight)).sum ∧
    oneshot_readback (build_oneshot_members (s.next_handle + 1) entries)
        (oneshot_member_calls (s.next_handle + 1) entries)
      = entries.flatMap (fun e =>
          (e.action, e.weight, e.watch) ::
            List.replicate (e.weight - 1) (e.action, 0, e.watch)) ∧
    oneshot_recover (entries.flatMap (fun e =>
        (e.action, e.weight, e.watch) ::
          List.replicate (e.weight - 1) (e.action, 0, e.watch))) = entries := by
  refine ⟨?_, build_oneshot_members_length entries _ hpos,
    oneshot_readback_build entries _ hpos, oneshot_recover_flatMap entries hpos⟩
  show lookupKey s.next_handle
      ((s.next_handle, build_oneshot_members (s.next_handle + 1) entries)
        :: s.group_members) = _
  exact lookupKey_cons_self

/-- The read-back theorem at the spec's example: entries A(weight 3) and
    B(weight 1) on a fresh store. -/
theorem oneshot_group_readback_witness :
    (∀ e ∈ [ActionSetEntry.mk 100 3 WatchPort.invalid_watch,
            ActionSetEntry.mk 200 1 WatchPort.invalid_watch], 1 ≤ e.weight) ∧
    ((build_oneshot_members 1
        [ActionSetEntry.mk 100 3 WatchPort.invalid_watch,
         ActionSetEntry.mk 200 1 WatchPort.invalid_watch]).length
      = ([ActionSetEntry.mk 100 3 WatchPort.invalid_watch,
          ActionSetEntry.mk 200 1 WatchPort.invalid_watch].map
            (fun e => e.weight)).sum) :=
  ⟨by decide,
   (oneshot_group_readback ⟨[], 0⟩
     [ActionSetEntry.mk 100 3 WatchPort.invalid_watch,
      ActionSetEntry.mk 200 1 WatchPort.invalid_watch] (by decide)).2.1⟩

/-- The spec's example computed out: creating with [{A, weight 3},
    {B, weight 1}] reads back as A(3), A(0), A(0), B(1) — 4 entries — and the
    original request is recovered. -/
example :
    oneshot_readback
        (build_oneshot_members 1
          [ActionSetEntry.mk 100 3 WatchPort.invalid_watch,
           ActionSetEntry.mk 200 1 WatchPort.invalid_watch])
        (oneshot_member_calls 1
          [ActionSetEntry.mk 100 3 WatchPort.invalid_watch,
           ActionSetEntry.mk 200 1 WatchPort.invalid_watch])
      = [(100, 3, WatchPort.invalid_watch), (100, 0, WatchPort.invalid_watch),
         (100, 0, WatchPort.invalid_watch), (200, 1, WatchPort.invalid_watch)] ∧
    oneshot_recover
        [(100, 3, WatchPort.invalid_watch), (100, 0, WatchPort.invalid_watch),
         (100, 0, WatchPort.invalid_watch), (200, 1, WatchPort.invalid_watch)]
      = [ActionSetEntry.mk 100 3 WatchPort.invalid_watch,
         ActionSetEntry.mk 200 1 WatchPort.invalid_watch] := by
  decide
